import Mathlib

/-!
Verification of the hypergraph rip-up-and-reroute engine.

This file gives a shallow embedding of the routing engine
(src/lib/HyperGraphSolver.ts, first revision in the file), the serialized
graph deserializer (src/lib/convertSerializedHyperGraphToHyperGraph.ts),
the jumper solver's heuristic precomputation and iteration budget
(src/lib/JumperGraphSolver/JumperGraphSolver.ts,
src/unnamed/part_010), and proves properties of the embedded code.

Modelling conventions:
* TypeScript numbers are embedded as rationals; hop counts as naturals.
* Object identity on ports / regions / routes is embedded as equality of
  their ids (port ids, region ids, and a numeric route id handed out by a
  counter, mirroring object allocation).
* Mutable maps are embedded as association lists; an update shadows by
  prepending, lookup takes the first hit.
* A TypeScript value that may be undefined is embedded as an Option.
-/

namespace HG

abbrev PortId := String
abbrev RegionId := String
abbrev ConnectionId := String
abbrev NetworkId := String
abbrev Cost := ℚ

/-- Association list lookup, first hit wins (embeds Map.get). -/
def getEntry {α : Type} : List (String × α) → String → Option α
  | [], _ => none
  | (k, v) :: rest, key => if k = key then some v else getEntry rest key

/-- Association list update by shadowing prepend (embeds Map.set for
lookup purposes). -/
def setEntry {α : Type} (m : List (String × α)) (k : String) (v : α) :
    List (String × α) :=
  (k, v) :: m

@[simp] theorem getEntry_set_self {α : Type} (m : List (String × α)) (k : String) (v : α) :
    getEntry (setEntry m k v) k = some v := by
  simp [getEntry, setEntry]

theorem getEntry_set_ne {α : Type} (m : List (String × α)) (k k' : String) (v : α)
    (h : k ≠ k') : getEntry (setEntry m k v) k' = getEntry m k' := by
  simp [getEntry, setEntry, h]

/-- A port: stable id plus the ids of the two regions it straddles
(src/lib/types.ts RegionPort; the mutable assignment / ripCount fields
live in the solver state). -/
structure RegionPort where
  portId : PortId
  region1 : RegionId
  region2 : RegionId
deriving DecidableEq, Repr

/-- A region: stable id plus its port list (src/lib/types.ts Region; the
mutable assignments list lives in the solver state). -/
structure Region where
  regionId : RegionId
  ports : List RegionPort
deriving DecidableEq, Repr

structure HyperGraph where
  ports : List RegionPort
  regions : List Region
deriving DecidableEq, Repr

/-- A connection; start and end regions are held by reference in the
source, embedded here as region values (src/lib/types.ts Connection). -/
structure Connection where
  connectionId : ConnectionId
  mutuallyConnectedNetworkId : NetworkId
  startRegion : Region
  endRegion : Region
deriving DecidableEq, Repr

/-- Search-node data (src/lib/types.ts Candidate, minus the parent
pointer which is carried by the Candidate inductive below). -/
structure CandidateData where
  port : RegionPort
  g : Cost
  h : Cost
  f : Cost
  hops : Nat
  lastPort : Option RegionPort
  lastRegion : Option RegionId
  nextRegion : Option RegionId
  ripRequired : Bool
deriving DecidableEq, Repr

/-- A candidate with its parent chain: root candidates have no parent. -/
inductive Candidate : Type where
  | root (d : CandidateData)
  | child (d : CandidateData) (parent : Candidate)
deriving DecidableEq, Repr

namespace Candidate

def data : Candidate → CandidateData
  | root d => d
  | child d _ => d

def parent? : Candidate → Option Candidate
  | root _ => none
  | child _ p => some p

def port (c : Candidate) : RegionPort := c.data.port
def g (c : Candidate) : Cost := c.data.g
def h (c : Candidate) : Cost := c.data.h
def f (c : Candidate) : Cost := c.data.f
def hops (c : Candidate) : Nat := c.data.hops
def lastPort (c : Candidate) : Option RegionPort := c.data.lastPort
def lastRegion (c : Candidate) : Option RegionId := c.data.lastRegion
def nextRegion (c : Candidate) : Option RegionId := c.data.nextRegion
def ripRequired (c : Candidate) : Bool := c.data.ripRequired

/-- The g score of the parent (source: candidate.parent!.g; the root
case is unreachable where this is used). -/
def parentG : Candidate → Cost
  | root _ => 0
  | child _ p => p.g

end Candidate

/-- A solved route (src/lib/types.ts SolvedRoute); routeId embeds object
identity, handed out by the solver's allocation counter. -/
structure SolvedRoute where
  routeId : Nat
  path : List Candidate
  connection : Connection
  requiredRip : Bool
deriving DecidableEq, Repr

/-- src/lib/types.ts PortAssignment. -/
structure PortAssignment where
  solvedRoute : SolvedRoute
  connection : Connection
deriving DecidableEq, Repr

/-- src/lib/types.ts RegionPortAssignment (the region is held by
reference in the source; embedded as its id). -/
structure RegionPortAssignment where
  regionPort1 : RegionPort
  regionPort2 : RegionPort
  region : RegionId
  connection : Connection
  solvedRoute : SolvedRoute
deriving DecidableEq, Repr

/-- Engine error states surfaced on the solver object; the source stores
message strings, embedded here as an enumeration. -/
inductive SolverError : Type where
  | ranOutOfCandidates
  | budgetExhausted
deriving DecidableEq, Repr

/-- The mutable state of a HyperGraphSolver instance
(src/lib/HyperGraphSolver.ts fields; port assignment, port ripCount and
region assignments are the graph's mutable fields, kept here keyed by
id). -/
structure SolverState where
  graph : HyperGraph
  connections : List Connection
  candidateQueue : List Candidate
  unprocessedConnections : List Connection
  solvedRoutes : List SolvedRoute
  currentConnection : Option Connection
  currentEndRegion : Option RegionId
  greedyMultiplier : Cost
  rippingEnabled : Bool
  ripCost : Cost
  lastCandidate : Option Candidate
  visitedPoints : List (PortId × Cost)
  portAssignments : List (PortId × Option PortAssignment)
  ripCounts : List (PortId × Nat)
  regionAssignments : List (RegionId × List RegionPortAssignment)
  nextRouteId : Nat
  solved : Bool
  failed : Bool
  error : Option SolverError
  iterations : Nat
deriving DecidableEq, Repr

/-- port.assignment (undefined embeds to none). -/
def SolverState.portAssignment (st : SolverState) (pid : PortId) : Option PortAssignment :=
  (getEntry st.portAssignments pid).getD none

/-- port.ripCount ?? 0. -/
def SolverState.ripCount (st : SolverState) (pid : PortId) : Nat :=
  (getEntry st.ripCounts pid).getD 0

/-- region.assignments (the constructor resets every region's list). -/
def SolverState.regionAssignList (st : SolverState) (rid : RegionId) : List RegionPortAssignment :=
  (getEntry st.regionAssignments rid).getD []

/-- this.currentConnection!.mutuallyConnectedNetworkId. -/
def SolverState.currentNet (st : SolverState) : NetworkId :=
  match st.currentConnection with
  | some c => c.mutuallyConnectedNetworkId
  | none => default

/-- The overridable policy hooks of HyperGraphSolver (the subclass
method overrides, passed explicitly; each receives the solver state the
method body would read through this). -/
structure SolverHooks where
  estimateCostToEnd : SolverState → RegionPort → Cost
  getPortUsagePenalty : SolverState → RegionPort → Cost
  computeIncreasedRegionCostIfPortsAreUsed :
    SolverState → RegionId → RegionPort → RegionPort → Cost
  getRipsRequiredForPortUsage :
    SolverState → RegionId → RegionPort → RegionPort → List RegionPortAssignment
  selectCandidatesForEnteringRegion : List Candidate → List Candidate

/-- The base-class defaults: zero costs, no rips, pass-through
selection. -/
def baseHooks : SolverHooks where
  estimateCostToEnd := fun _ _ => 0
  getPortUsagePenalty := fun _ _ => 0
  computeIncreasedRegionCostIfPortsAreUsed := fun _ _ _ _ => 0
  getRipsRequiredForPortUsage := fun _ _ _ _ => []
  selectCandidatesForEnteringRegion := fun l => l

/-- port.region1 === currentRegion ? port.region2 : port.region1. -/
def otherRegionId (p : RegionPort) (rid : RegionId) : RegionId :=
  if p.region1 = rid then p.region2 else p.region1

def findRegion (g : HyperGraph) (rid : RegionId) : Option Region :=
  g.regions.find? (fun r => r.regionId = rid)

/-- HyperGraphSolver.computeH. -/
def computeH (hooks : SolverHooks) (st : SolverState) (c : Candidate) : Cost :=
  hooks.estimateCostToEnd st c.port

/-- HyperGraphSolver.computeG (lines 146-157): parent.g plus the
increased region cost for (lastRegion, lastPort, port) plus ripCost when
ripRequired plus the port usage penalty. -/
def computeG (hooks : SolverHooks) (st : SolverState) (c : Candidate) : Cost :=
  c.parentG +
    hooks.computeIncreasedRegionCostIfPortsAreUsed st
      (c.lastRegion.getD default) (c.lastPort.getD c.port) c.port +
    (if c.ripRequired then st.ripCost else 0) +
    hooks.getPortUsagePenalty st c.port

/-- The score-assignment pass at the end of getNextCandidates: g, h, and
f = g + h * greedyMultiplier are written onto the candidate. -/
def assignScores (hooks : SolverHooks) (st : SolverState) (c : Candidate) : Candidate :=
  let gv := computeG hooks st c
  let hv := computeH hooks st c
  let d := c.data
  let d2 := { d with g := gv, h := hv, f := gv + hv * st.greedyMultiplier }
  match c with
  | .root _ => .root d2
  | .child _ p => .child d2 p

/-- Grouping of fresh candidates by the id of the region they would
enter (the Record in getNextCandidates; string-keyed record iteration is
first-insertion order). -/
def addToGroup : List (RegionId × List Candidate) → RegionId → Candidate →
    List (RegionId × List Candidate)
  | [], rid, c => [(rid, [c])]
  | (r, cs) :: rest, rid, c =>
    if r = rid then (r, cs ++ [c]) :: rest else (r, cs) :: addToGroup rest rid c

def groupByNextRegion (cands : List Candidate) : List (RegionId × List Candidate) :=
  cands.foldl (fun acc c => addToGroup acc (c.nextRegion.getD default) c) []

/-- The raw expansion loop body of getNextCandidates (lines 173-198):
for every port of the entered region other than the candidate's own,
build a child candidate; drop it when ripping is disabled and the port
carries a different-net assignment. -/
def rawNextCandidates (st : SolverState) (c : Candidate) (currentRegion : Region) :
    List Candidate :=
  currentRegion.ports.filterMap (fun port =>
    if port.portId = c.port.portId then none
    else
      let ripRequired : Bool :=
        match st.portAssignment port.portId with
        | some a => decide (a.connection.mutuallyConnectedNetworkId ≠ st.currentNet)
        | none => false
      if !st.rippingEnabled && ripRequired then none
      else
        some (Candidate.child
          { port := port
            g := 0, h := 0, f := 0
            hops := c.hops + 1
            lastPort := some c.port
            lastRegion := some currentRegion.regionId
            nextRegion := some (otherRegionId port currentRegion.regionId)
            ripRequired := ripRequired } c))

/-- HyperGraphSolver.getNextCandidates (lines 169-216). -/
def getNextCandidates (hooks : SolverHooks) (st : SolverState) (c : Candidate) :
    List Candidate :=
  match c.nextRegion with
  | none => []
  | some curRid =>
    match findRegion st.graph curRid with
    | none => []
    | some currentRegion =>
      let raw := rawNextCandidates st c currentRegion
      let groups := groupByNextRegion raw
      let selected := groups.flatMap
        (fun g => hooks.selectCandidatesForEnteringRegion g.2)
      selected.map (assignScores hooks st)

/-- The parent-chain walk of processSolvedRoute (lines 225-231): the
path runs root first, final candidate last. -/
def buildPath : Candidate → List Candidate
  | .root d => [.root d]
  | .child d p => buildPath p ++ [.child d p]

/-- Set-of-routes deduplication (object identity embeds to routeId),
keeping first-insertion order. -/
def dedupByRouteIdFuel : Nat → List SolvedRoute → List SolvedRoute
  | 0, _ => []
  | _ + 1, [] => []
  | fuel + 1, r :: rest =>
    r :: dedupByRouteIdFuel fuel (rest.filter (fun x => x.routeId ≠ r.routeId))

def dedupByRouteId (l : List SolvedRoute) : List SolvedRoute :=
  dedupByRouteIdFuel l.length l

/-- The record-removal predicate of ripSolvedRoute: keep a record iff
neither of its two ports is the ripped port. -/
def ripKeep (p : RegionPort) (a : RegionPortAssignment) : Bool :=
  a.regionPort1.portId ≠ p.portId && a.regionPort2.portId ≠ p.portId

/-- The per-port loop body of ripSolvedRoute (lines 311-320). -/
def ripPortUpdate (s : SolverState) (p : RegionPort) : SolverState :=
  let s1 := { s with
    ripCounts := setEntry s.ripCounts p.portId (s.ripCount p.portId + 1) }
  let s2 := { s1 with
    regionAssignments := setEntry s1.regionAssignments p.region1
      ((s1.regionAssignList p.region1).filter (ripKeep p)) }
  let s3 := { s2 with
    regionAssignments := setEntry s2.regionAssignments p.region2
      ((s2.regionAssignList p.region2).filter (ripKeep p)) }
  { s3 with portAssignments := setEntry s3.portAssignments p.portId none }

/-- HyperGraphSolver.ripSolvedRoute (lines 310-323): per path port,
bump ripCount, drop the port's records from both adjacent regions'
assignment lists, clear the port assignment; then drop the route from
solvedRoutes and requeue its connection. -/
def ripSolvedRoute (st : SolverState) (r : SolvedRoute) : SolverState :=
  let st1 := (r.path.map Candidate.port).foldl ripPortUpdate st
  { st1 with
    solvedRoutes := st1.solvedRoutes.filter (fun x => x.routeId ≠ r.routeId)
    unprocessedConnections := st1.unprocessedConnections ++ [r.connection] }

/-- The per-candidate body of the install loop (lines 269-283). -/
def installStep (newRoute : SolvedRoute) (conn : Connection) (s : SolverState)
    (c : Candidate) : SolverState :=
  let s1 := { s with
    portAssignments := setEntry s.portAssignments c.port.portId
      (some { solvedRoute := newRoute, connection := conn }) }
  match c.lastPort with
  | none => s1
  | some lp =>
    let lr := c.lastRegion.getD default
    let ra : RegionPortAssignment :=
      { regionPort1 := lp, regionPort2 := c.port, region := lr
        connection := conn, solvedRoute := newRoute }
    { s1 with regionAssignments :=
        setEntry s1.regionAssignments lr (s1.regionAssignList lr ++ [ra]) }

/-- The install loop of processSolvedRoute (lines 269-283): set each
path port's assignment to the new route; for each non-root candidate
append a region-port-pair record to the traversed region. -/
def installRoute (st : SolverState) (newRoute : SolvedRoute) (conn : Connection) :
    SolverState :=
  newRoute.path.foldl (installStep newRoute conn) st

/-- The rip collection of processSolvedRoute (lines 233-259): ports on
the path holding a different-net assignment (only when some path
candidate was flagged ripRequired), plus the crossing assignments
returned by the hook for every consecutive port pair. -/
def collectRoutesToRip (hooks : SolverHooks) (st : SolverState) (conn : Connection)
    (path : List Candidate) (anyRips : Bool) : List SolvedRoute :=
  let rips1 : List SolvedRoute :=
    if anyRips then
      path.filterMap (fun c =>
        match st.portAssignment c.port.portId with
        | some a =>
          if a.connection.mutuallyConnectedNetworkId ≠ conn.mutuallyConnectedNetworkId
          then some a.solvedRoute else none
        | none => none)
    else []
  let rips2 : List SolvedRoute :=
    path.flatMap (fun c =>
      match c.lastPort, c.lastRegion with
      | some lp, some lr =>
        (hooks.getRipsRequiredForPortUsage st lr lp c.port).map (fun a => a.solvedRoute)
      | _, _ => [])
  dedupByRouteId (rips1 ++ rips2)

/-- HyperGraphSolver.processSolvedRoute (lines 218-287). -/
def processSolvedRoute (hooks : SolverHooks) (st : SolverState) (finalCandidate : Candidate) :
    SolverState :=
  match st.currentConnection with
  | none => st
  | some conn =>
    let path := buildPath finalCandidate
    let anyRips := path.any (fun c => c.ripRequired)
    let routesToRip := collectRoutesToRip hooks st conn path anyRips
    let requiredRip := anyRips || ¬ routesToRip.isEmpty
    let newRoute : SolvedRoute :=
      { routeId := st.nextRouteId, path := path, connection := conn
        requiredRip := requiredRip }
    let st1 := routesToRip.foldl ripSolvedRoute st
    let st2 := installRoute st1 newRoute conn
    { st2 with
      solvedRoutes := st2.solvedRoutes ++ [newRoute]
      nextRouteId := st.nextRouteId + 1 }

/-- Root candidate for a start-region port (beginNewConnection lines
331-344). -/
def rootCandidate (conn : Connection) (port : RegionPort) : Candidate :=
  Candidate.root
    { port := port
      g := 0, h := 0, f := 0, hops := 0
      lastPort := none, lastRegion := none
      nextRegion := some (otherRegionId port conn.startRegion.regionId)
      ripRequired := false }

/-- HyperGraphSolver.beginNewConnection (lines 325-345). The source
crashes on an empty queue (shift()!); that unreachable case leaves the
current connection cleared. -/
def beginNewConnection (st : SolverState) : SolverState :=
  match st.unprocessedConnections with
  | [] => { st with currentConnection := none }
  | conn :: rest =>
    { st with
      currentConnection := some conn
      currentEndRegion := some conn.endRegion.regionId
      unprocessedConnections := rest
      candidateQueue := conn.startRegion.ports.map (rootCandidate conn)
      visitedPoints := [] }

/-- Modelled from the spec: the PriorityQueue module is not under src/.
Spec 4.2: a min-heap over candidates ordered by ascending f, ties broken
by insertion order. Dequeue returns the earliest-inserted candidate of
minimal f and the remaining queue. -/
def dequeueMin : List Candidate → Option (Candidate × List Candidate)
  | [] => none
  | c :: rest =>
    match dequeueMin rest with
    | none => some (c, [])
    | some (m, rest') => if c.f ≤ m.f then some (c, rest) else some (m, c :: rest')

theorem dequeueMin_cons (a : Candidate) (rest : List Candidate) :
    dequeueMin (a :: rest) =
      match dequeueMin rest with
      | none => some (a, [])
      | some (m, rest') => if a.f ≤ m.f then some (a, rest) else some (m, a :: rest') :=
  rfl

theorem dequeueMin_ne_none (c : Candidate) (rest : List Candidate) :
    dequeueMin (c :: rest) ≠ none := by
  cases hr : dequeueMin rest with
  | none => simp [dequeueMin_cons, hr]
  | some p =>
    obtain ⟨m, r2⟩ := p
    by_cases hf : c.f ≤ m.f <;> simp [dequeueMin_cons, hr, hf]

theorem dequeueMin_length :
    ∀ {q : List Candidate} {c : Candidate} {q' : List Candidate},
      dequeueMin q = some (c, q') → q'.length + 1 = q.length := by
  intro q
  induction q with
  | nil => intro c q' h; simp [dequeueMin] at h
  | cons a rest ih =>
    intro c q' h
    rw [dequeueMin_cons] at h
    cases hr : dequeueMin rest with
    | none =>
      rw [hr] at h
      simp only [Option.some.injEq, Prod.mk.injEq] at h
      obtain ⟨h1, h2⟩ := h
      subst h2
      cases rest with
      | nil => simp
      | cons b rs => exact absurd hr (dequeueMin_ne_none b rs)
    | some p =>
      obtain ⟨m, rest'⟩ := p
      rw [hr] at h
      by_cases hf : a.f ≤ m.f
      · simp only [hf, if_true, Option.some.injEq, Prod.mk.injEq] at h
        obtain ⟨h1, h2⟩ := h
        subst h2
        simp
      · simp only [hf, if_false, Option.some.injEq, Prod.mk.injEq] at h
        obtain ⟨h1, h2⟩ := h
        subst h2
        have := ih hr
        simp only [List.length_cons]
        omega

/-- Fuel-driven form of the dequeue/skip loop; each iteration shortens
the queue by exactly one, so fuel = initial queue length is exact. -/
def findProcessableFuel (visited : List (PortId × Cost)) :
    Nat → List Candidate → Option (Candidate × List Candidate)
  | 0, _ => none
  | fuel + 1, q =>
    match dequeueMin q with
    | none => none
    | some (c, q') =>
      match getEntry visited c.port.portId with
      | none => some (c, q')
      | some v =>
        if c.g < v then some (c, q')
        else findProcessableFuel visited fuel q'

/-- The dequeue/skip loop at the top of step (lines 347-372): dequeue
until we find a candidate whose port is unvisited or whose g improves on
the recorded score; return it with the remaining queue, or none when the
queue drains. -/
def findProcessable (visited : List (PortId × Cost)) (q : List Candidate) :
    Option (Candidate × List Candidate) :=
  findProcessableFuel visited q.length q

/-- Recording phase of step (lines 373-377): remember the candidate and
write its g into the per-connection visited map. -/
def recordVisited (st : SolverState) (c : Candidate) (q' : List Candidate) :
    SolverState :=
  { st with
    candidateQueue := q'
    lastCandidate := some c
    visitedPoints := setEntry st.visitedPoints c.port.portId c.g }

/-- The goal test candidate.nextRegion === currentEndRegion. -/
def goalReached (st : SolverState) (c : Candidate) : Bool :=
  match st.currentEndRegion, c.nextRegion with
  | some e, some n => n = e
  | _, _ => false

/-- The tail of step once a processable candidate is in hand
(lines 373-392). -/
def stepWithCandidate (hooks : SolverHooks) (st : SolverState) (c : Candidate)
    (q' : List Candidate) : SolverState :=
  let st1 := recordVisited st c q'
  if goalReached st1 c then
    let st2 := processSolvedRoute hooks st1 c
    if st2.unprocessedConnections.isEmpty then { st2 with solved := true }
    else beginNewConnection st2
  else
    { st1 with candidateQueue := st1.candidateQueue ++ getNextCandidates hooks st1 c }

/-- HyperGraphSolver.step (lines 347-393). -/
def stepSolver (hooks : SolverHooks) (st : SolverState) : SolverState :=
  match findProcessable st.visitedPoints st.candidateQueue with
  | none => { st with failed := true, error := some SolverError.ranOutOfCandidates }
  | some (c, q') => stepWithCandidate hooks st c q'

/-- The HyperGraphSolver constructor (lines 49-75): reset every region's
assignment list, copy the connection list into the unprocessed queue and
begin the first connection. inputRegionAssignments embeds whatever
assignment records the input graph carried. -/
def mkSolver (graph : HyperGraph) (connections : List Connection)
    (inputRegionAssignments : List (RegionId × List RegionPortAssignment))
    (greedyMultiplier : Cost) (rippingEnabled : Bool) (ripCost : Cost) :
    SolverState :=
  beginNewConnection
    { graph := graph
      connections := connections
      candidateQueue := []
      unprocessedConnections := connections
      solvedRoutes := []
      currentConnection := none
      currentEndRegion := none
      greedyMultiplier := greedyMultiplier
      rippingEnabled := rippingEnabled
      ripCost := ripCost
      lastCandidate := none
      visitedPoints := []
      portAssignments := []
      ripCounts := []
      regionAssignments :=
        graph.regions.foldl (fun acc r => setEntry acc r.regionId []) inputRegionAssignments
      nextRouteId := 0
      solved := false
      failed := false
      error := none
      iterations := 0 }

/-- Modelled from the spec: BaseSolver.solve is not under src/. Spec 6:
solve repeats step until terminal. Budgetless fuel-driven run used for
concrete executions. -/
def runSteps (hooks : SolverHooks) : Nat → SolverState → SolverState
  | 0, st => st
  | n + 1, st =>
    if st.solved ∨ st.failed then st
    else runSteps hooks n (stepSolver hooks st)

/-! ### The deserializer
src/lib/convertSerializedHyperGraphToHyperGraph.ts (lines 12-56). It
builds id-keyed Maps and dereferences with map.get(id)! (a non-null
assertion, erased at runtime): a missing id yields an undefined entry,
embedded here as none. A JavaScript Map keeps first-insertion key order
and overwrites values on repeated set. -/

/-- JavaScript Map.set: overwrite in place, or append a fresh key. -/
def mapSet {α : Type} (m : List (String × α)) (k : String) (v : α) :
    List (String × α) :=
  if m.any (fun e => e.1 = k) then
    m.map (fun e => if e.1 = k then (k, v) else e)
  else m ++ [(k, v)]

/-- JavaScript Map.get: undefined embeds to none. -/
def mapGet {α : Type} (m : List (String × α)) (k : String) : Option α :=
  (m.find? (fun e => e.1 = k)).map (fun e => e.2)

/-- A graph edge as the deserializer sees it (only its id matters
here). -/
structure GraphEdge where
  edgeId : String
deriving DecidableEq, Repr

/-- Serialized port: its id plus referenced edge ids. -/
structure SerializedGraphPort where
  portId : PortId
  edgeIds : List String
deriving DecidableEq, Repr

/-- Serialized region: its id plus referenced port ids. -/
structure SerializedGraphRegion where
  regionId : RegionId
  pointIds : List PortId
deriving DecidableEq, Repr

structure SerializedHyperGraph where
  edges : List GraphEdge
  ports : List SerializedGraphPort
  regions : List SerializedGraphRegion
deriving DecidableEq, Repr

/-- Deserialized port: edge references dereferenced by id; a missing id
gives a dangling (none) entry, mirroring map.get(...)!. -/
structure DeserializedPort where
  portId : PortId
  edges : List (Option GraphEdge)
deriving DecidableEq, Repr

/-- Deserialized region: port references dereferenced by id; a missing
id gives a dangling (none) entry. -/
structure DeserializedRegion where
  regionId : RegionId
  ports : List (Option DeserializedPort)
deriving DecidableEq, Repr

structure DeserializedHyperGraph where
  edges : List GraphEdge
  ports : List DeserializedPort
  regions : List DeserializedRegion
deriving DecidableEq, Repr

/-- The edgeMap of the deserializer (lines 19-21). -/
def buildEdgeMap (sg : SerializedHyperGraph) : List (String × GraphEdge) :=
  sg.edges.foldl (fun m e => mapSet m e.edgeId e) []

/-- A deserialized port: edge ids dereferenced through the edgeMap with
map.get(...)!, missing ids giving a dangling none (lines 23-35). -/
def deserializedPortOf (sg : SerializedHyperGraph) (p : SerializedGraphPort) :
    DeserializedPort :=
  { portId := p.portId
    edges := p.edgeIds.map (fun eid => mapGet (buildEdgeMap sg) eid) }

/-- The pointMap of the deserializer. -/
def buildPointMap (sg : SerializedHyperGraph) : List (String × DeserializedPort) :=
  sg.ports.foldl (fun m p => mapSet m p.portId (deserializedPortOf sg p)) []

/-- A deserialized region: port ids dereferenced through the pointMap
with map.get(...)!, missing ids giving a dangling none (lines 37-49). -/
def deserializedRegionOf (sg : SerializedHyperGraph) (r : SerializedGraphRegion) :
    DeserializedRegion :=
  { regionId := r.regionId
    ports := r.pointIds.map (fun pid => mapGet (buildPointMap sg) pid) }

/-- The regionMap of the deserializer. -/
def buildRegionMap (sg : SerializedHyperGraph) : List (String × DeserializedRegion) :=
  sg.regions.foldl (fun m r => mapSet m r.regionId (deserializedRegionOf sg r)) []

/-- convertSerializedHyperGraphToHyperGraph, serialized-input branches
(lines 12-56). Total: it never raises; unknown referenced ids become
dangling none entries. -/
def convertSerializedHyperGraphToHyperGraph (sg : SerializedHyperGraph) :
    DeserializedHyperGraph :=
  { edges := (buildEdgeMap sg).map (fun e => e.2)
    ports := (buildPointMap sg).map (fun e => e.2)
    regions := (buildRegionMap sg).map (fun e => e.2) }

/-! ### Small facts about the embedded maps -/

theorem mapGet_cons {α : Type} (e : String × α) (l : List (String × α)) (k : String) :
    mapGet (e :: l) k = if e.1 = k then some e.2 else mapGet l k := by
  by_cases h : e.1 = k <;> simp [mapGet, List.find?_cons, h]

theorem mapGet_replace_self {α : Type} (m : List (String × α)) (k : String) (v : α) :
    (∃ e ∈ m, e.1 = k) →
      mapGet (m.map (fun e => if e.1 = k then (k, v) else e)) k = some v := by
  induction m with
  | nil => intro h; simp at h
  | cons e rest ih =>
    intro h
    by_cases he : e.1 = k
    · simp [mapGet_cons, he]
    · have hrest : ∃ x ∈ rest, x.1 = k := by
        rcases h with ⟨z, hz, hkz⟩
        rcases List.mem_cons.1 hz with rfl | hz2
        · exact absurd hkz he
        · exact ⟨z, hz2, hkz⟩
      simp only [List.map_cons, if_neg he, mapGet_cons, he, if_false]
      exact ih hrest

theorem mapGet_replace_ne {α : Type} (m : List (String × α)) (k k' : String) (v : α)
    (h : k ≠ k') :
    mapGet (m.map (fun e => if e.1 = k then (k, v) else e)) k' = mapGet m k' := by
  induction m with
  | nil => rfl
  | cons e rest ih =>
    by_cases he : e.1 = k
    · have h1 : ¬ (k = k') := h
      have h2 : ¬ (e.1 = k') := by rw [he]; exact h
      simp only [List.map_cons, if_pos he, mapGet_cons, h1, if_false, h2]
      exact ih
    · simp only [List.map_cons, if_neg he, mapGet_cons]
      by_cases hk : e.1 = k'
      · simp [hk]
      · simp only [hk, if_false]
        exact ih

theorem mapGet_append_single_self {α : Type} (m : List (String × α)) (k : String) (v : α)
    (h : ∀ e ∈ m, e.1 ≠ k) : mapGet (m ++ [(k, v)]) k = some v := by
  induction m with
  | nil => simp [mapGet_cons]
  | cons e rest ih =>
    have he : ¬ (e.1 = k) := h e (List.mem_cons_self _ _)
    simp only [List.cons_append, mapGet_cons, he, if_false]
    exact ih (fun x hx => h x (List.mem_cons_of_mem _ hx))

theorem mapGet_append_single_ne {α : Type} (m : List (String × α)) (k k' : String) (v : α)
    (h : k ≠ k') : mapGet (m ++ [(k, v)]) k' = mapGet m k' := by
  induction m with
  | nil => simp [mapGet_cons, h]
  | cons e rest ih =>
    simp only [List.cons_append, mapGet_cons]
    by_cases hk : e.1 = k'
    · simp [hk]
    · simp only [hk, if_false]
      exact ih

theorem mapGet_mapSet_self {α : Type} (m : List (String × α)) (k : String) (v : α) :
    mapGet (mapSet m k v) k = some v := by
  unfold mapSet
  by_cases h : m.any (fun e => e.1 = k)
  · simp only [h, if_true]
    apply mapGet_replace_self
    simpa using h
  · simp only [h, if_false]
    apply mapGet_append_single_self
    intro e he hk
    exact h (by simp only [List.any_eq_true]; exact ⟨e, he, by simp [hk]⟩)

theorem mapGet_mapSet_ne {α : Type} (m : List (String × α)) (k k' : String) (v : α)
    (h : k ≠ k') : mapGet (mapSet m k v) k' = mapGet m k' := by
  unfold mapSet
  by_cases hany : m.any (fun e => e.1 = k)
  · simp only [hany, if_true]
    exact mapGet_replace_ne _ _ _ _ h
  · simp only [hany, if_false]
    exact mapGet_append_single_ne _ _ _ _ h

theorem mapGet_build_of_not_mem {α β : Type} (l : List β) (key : β → String)
    (val : β → α) (init : List (String × α)) (k : String) :
    (∀ x ∈ l, key x ≠ k) →
      mapGet (l.foldl (fun m x => mapSet m (key x) (val x)) init) k = mapGet init k := by
  induction l generalizing init with
  | nil => intro _; rfl
  | cons x rest ih =>
    intro h
    simp only [List.foldl_cons]
    rw [ih (mapSet init (key x) (val x)) (fun y hy => h y (List.mem_cons_of_mem _ hy))]
    exact mapGet_mapSet_ne _ _ _ _ (h x (List.mem_cons_self _ _))

theorem mapGet_build_mem {α β : Type} (l : List β) (key : β → String)
    (val : β → α) (init : List (String × α)) (k : String) :
    (∃ x ∈ l, key x = k) →
      ∃ x ∈ l, key x = k ∧
        mapGet (l.foldl (fun m x => mapSet m (key x) (val x)) init) k = some (val x) := by
  induction l generalizing init with
  | nil => intro h; simp at h
  | cons x rest ih =>
    intro h
    by_cases hr : ∃ y ∈ rest, key y = k
    · obtain ⟨y, hy, hky, hget⟩ := ih (mapSet init (key x) (val x)) hr
      exact ⟨y, List.mem_cons_of_mem _ hy, hky, by simpa using hget⟩
    · have hx : key x = k := by
        rcases h with ⟨z, hz, hkz⟩
        rcases List.mem_cons.1 hz with rfl | hz2
        · exact hkz
        · exact absurd ⟨z, hz2, hkz⟩ hr
      refine ⟨x, List.mem_cons_self _ _, hx, ?_⟩
      rw [List.foldl_cons,
        mapGet_build_of_not_mem _ _ _ _ _ (fun y hy hk => hr ⟨y, hy, hk⟩)]
      rw [← hx]
      exact mapGet_mapSet_self _ _ _

theorem mapGet_mem_values {α : Type} {m : List (String × α)} {k : String} {v : α}
    (h : mapGet m k = some v) : v ∈ m.map (fun e => e.2) := by
  unfold mapGet at h
  cases hf : m.find? (fun e => e.1 = k) with
  | none => rw [hf] at h; simp at h
  | some e =>
    rw [hf] at h
    have hv : e.2 = v := by simpa using h
    subst hv
    exact List.mem_map_of_mem _ (List.mem_of_find?_eq_some hf)

/-! ### Concrete fixtures used by witnesses and counterexamples -/

/-- A port straddling the two regions of the minimal graph. -/
def portAB : RegionPort := ⟨"p", "A", "B"⟩

def regionA : Region := ⟨"A", [portAB]⟩

def regionB : Region := ⟨"B", [portAB]⟩

/-- The minimal single-cell graph: two adjacent regions sharing one
port. -/
def twoRegionGraph : HyperGraph := ⟨[portAB], [regionA, regionB]⟩

def connAB1 : Connection := ⟨"c1", "N1", regionA, regionB⟩

/-- A second connection over the same pair of regions on a different
net. -/
def connAB2 : Connection := ⟨"c2", "N2", regionA, regionB⟩

/-! ### C10 -/

theorem getEntry_resetFold (l : List Region)
    (acc : List (RegionId × List RegionPortAssignment)) (rid : RegionId) :
    ((∃ r ∈ l, r.regionId = rid) ∨ getEntry acc rid = some []) →
      getEntry
        (l.foldl (fun acc r => setEntry acc r.regionId ([] : List RegionPortAssignment)) acc)
        rid = some [] := by
  induction l generalizing acc with
  | nil =>
    intro h
    rcases h with ⟨r, hr, _⟩ | h
    · simp at hr
    · exact h
  | cons x rest ih =>
    intro h
    simp only [List.foldl_cons]
    apply ih
    by_cases hx : x.regionId = rid
    · right
      rw [← hx]
      exact getEntry_set_self _ _ _
    · rcases h with ⟨r, hr, hrid⟩ | hacc
      · rcases List.mem_cons.1 hr with rfl | hr2
        · exact absurd hrid hx
        · exact Or.inl ⟨r, hr2, hrid⟩
      · right
        rw [getEntry_set_ne _ _ _ _ hx]
        exact hacc

/-- C10: at engine construction every region's assignment list is reset
to empty before any search begins, discarding whatever assignment
records the input graph carried (HyperGraphSolver constructor lines
57-75). -/
theorem c10_constructor_resets_region_assignments
    (graph : HyperGraph) (connections : List Connection)
    (inputRegionAssignments : List (RegionId × List RegionPortAssignment))
    (gm : Cost) (re : Bool) (rc : Cost) (r : Region) (hr : r ∈ graph.regions) :
    (mkSolver graph connections inputRegionAssignments gm re rc).regionAssignList
      r.regionId = [] := by
  have hpres :
      (mkSolver graph connections inputRegionAssignments gm re rc).regionAssignments =
        graph.regions.foldl
          (fun acc r => setEntry acc r.regionId ([] : List RegionPortAssignment))
          inputRegionAssignments := by
    unfold mkSolver beginNewConnection
    cases connections <;> rfl
  unfold SolverState.regionAssignList
  rw [hpres, getEntry_resetFold _ _ _ (Or.inl ⟨r, hr, rfl⟩)]
  rfl

/-- Witness for C10 at a concrete construction. -/
theorem c10_witness :
    regionA ∈ twoRegionGraph.regions ∧
      (mkSolver twoRegionGraph [connAB1]
          [("A", [⟨portAB, portAB, "A", connAB1, ⟨7, [], connAB1, false⟩⟩])]
          1 false 0).regionAssignList
        regionA.regionId = [] :=
  ⟨by decide,
    c10_constructor_resets_region_assignments twoRegionGraph [connAB1]
      [("A", [⟨portAB, portAB, "A", connAB1, ⟨7, [], connAB1, false⟩⟩])] 1 false 0
      regionA (by decide)⟩

/-! ### C7 -/

/-- A serialized graph whose only region references an undefined port
id. -/
def badSerializedGraph : SerializedHyperGraph :=
  ⟨[], [], [⟨"R", ["missing"]⟩]⟩

/-- C7 counterexample: deserializing a graph in which a region
references a port id that is not defined does not fail with a
MalformedGraph error; the deserializer totally returns a graph whose
region carries a dangling (none) reference at that position. -/
theorem c7_counterexample :
    (convertSerializedHyperGraphToHyperGraph badSerializedGraph).regions =
      [⟨"R", [none]⟩] := by
  decide

/-- C7 amended: deserialization never fails; for every serialized graph
in which some region references a port id that is not defined in the
serialized input, the constructed graph contains that region with a
dangling (none) entry in its port list instead. -/
theorem c7_amended_dangling (sg : SerializedHyperGraph)
    (hnodup : (sg.regions.map (fun r => r.regionId)).Nodup)
    (r : SerializedGraphRegion) (hr : r ∈ sg.regions) (pid : PortId)
    (hpid : pid ∈ r.pointIds) (hmiss : ∀ p ∈ sg.ports, p.portId ≠ pid) :
    ∃ dr ∈ (convertSerializedHyperGraphToHyperGraph sg).regions,
      dr.regionId = r.regionId ∧ none ∈ dr.ports := by
  obtain ⟨x, hx, hkx, hget⟩ :=
    mapGet_build_mem sg.regions (fun r => r.regionId) (deserializedRegionOf sg) []
      r.regionId ⟨r, hr, rfl⟩
  have hxr : x = r := by
    exact List.inj_on_of_nodup_map hnodup hx hr hkx
  subst hxr
  refine ⟨deserializedRegionOf sg x, ?_, rfl, ?_⟩
  · exact mapGet_mem_values hget
  · have hnone : mapGet (buildPointMap sg) pid = none := by
      rw [show buildPointMap sg =
        sg.ports.foldl (fun m p => mapSet m p.portId (deserializedPortOf sg p)) [] from rfl]
      rw [mapGet_build_of_not_mem sg.ports (fun p => p.portId) (deserializedPortOf sg)
        [] pid hmiss]
      rfl
    have : (fun pid => mapGet (buildPointMap sg) pid) pid = none := hnone
    exact this ▸ List.mem_map_of_mem _ hpid

/-- Witness for the amended C7 at a concrete serialized graph. -/
theorem c7_amended_witness :
    ∃ dr ∈ (convertSerializedHyperGraphToHyperGraph badSerializedGraph).regions,
      dr.regionId = (⟨"R", ["missing"]⟩ : SerializedGraphRegion).regionId ∧
        none ∈ dr.ports :=
  c7_amended_dangling badSerializedGraph (by decide) ⟨"R", ["missing"]⟩ (by decide)
    "missing" (by decide) (by decide)

/-! ### C1 -/

theorem mem_addToGroup :
    ∀ (acc : List (RegionId × List Candidate)) (rid : RegionId) (c : Candidate)
      (g : RegionId × List Candidate), g ∈ addToGroup acc rid c →
      ∀ x ∈ g.2, (∃ g0 ∈ acc, x ∈ g0.2) ∨ x = c := by
  intro acc
  induction acc with
  | nil =>
    intro rid c g hg x hx
    simp only [addToGroup, List.mem_singleton] at hg
    subst hg
    simp only [List.mem_singleton] at hx
    exact Or.inr hx
  | cons e rest ih =>
    intro rid c g hg x hx
    obtain ⟨r, cs⟩ := e
    by_cases he : r = rid
    · simp only [addToGroup, he, if_true] at hg
      rcases List.mem_cons.1 hg with rfl | hg2
      · rcases List.mem_append.1 hx with hx1 | hx2
        · exact Or.inl ⟨(r, cs), List.mem_cons_self _ _, hx1⟩
        · exact Or.inr (List.mem_singleton.1 hx2)
      · exact Or.inl ⟨g, List.mem_cons_of_mem _ hg2, hx⟩
    · simp only [addToGroup, he, if_false] at hg
      rcases List.mem_cons.1 hg with rfl | hg2
      · exact Or.inl ⟨(r, cs), List.mem_cons_self _ _, hx⟩
      · rcases ih rid c g hg2 x hx with ⟨g0, hg0, hxg0⟩ | hxc
        · exact Or.inl ⟨g0, List.mem_cons_of_mem _ hg0, hxg0⟩
        · exact Or.inr hxc

theorem mem_groupFold :
    ∀ (l : List Candidate) (acc : List (RegionId × List Candidate))
      (g : RegionId × List Candidate),
      g ∈ l.foldl (fun acc c => addToGroup acc (c.nextRegion.getD default) c) acc →
      ∀ x ∈ g.2, (∃ g0 ∈ acc, x ∈ g0.2) ∨ x ∈ l := by
  intro l
  induction l with
  | nil => intro acc g hg x hx; exact Or.inl ⟨g, hg, hx⟩
  | cons c rest ih =>
    intro acc g hg x hx
    simp only [List.foldl_cons] at hg
    rcases ih _ g hg x hx with ⟨g0, hg0, hxg0⟩ | hxl
    · rcases mem_addToGroup acc _ c g0 hg0 x hxg0 with ⟨g1, hg1, hxg1⟩ | hxc
      · exact Or.inl ⟨g1, hg1, hxg1⟩
      · exact Or.inr (hxc ▸ List.mem_cons_self _ _)
    · exact Or.inr (List.mem_cons_of_mem _ hxl)

theorem mem_groupByNextRegion {l : List Candidate} {g : RegionId × List Candidate}
    (hg : g ∈ groupByNextRegion l) : ∀ x ∈ g.2, x ∈ l := by
  intro x hx
  rcases mem_groupFold l [] g hg x hx with ⟨g0, hg0, _⟩ | hxl
  · simp at hg0
  · exact hxl

theorem mem_rawNextCandidates {st : SolverState} {c : Candidate}
    {currentRegion : Region} :
    ∀ c' ∈ rawNextCandidates st c currentRegion,
      ∃ d : CandidateData, c' = Candidate.child d c ∧
        d.lastPort = some c.port ∧ d.lastRegion = some currentRegion.regionId := by
  intro c' hc'
  unfold rawNextCandidates at hc'
  rw [List.mem_filterMap] at hc'
  obtain ⟨port, hport, heq⟩ := hc'
  by_cases hsame : port.portId = c.port.portId
  · simp only [hsame, if_true] at heq
    cases heq
  · simp only [hsame, if_false] at heq
    by_cases hskip : (!st.rippingEnabled &&
        match st.portAssignment port.portId with
        | some a => decide (a.connection.mutuallyConnectedNetworkId ≠ st.currentNet)
        | none => false) = true
    · rw [if_pos hskip] at heq
      cases heq
    · rw [if_neg hskip] at heq
      obtain rfl := Option.some.inj heq
      exact ⟨_, rfl, rfl, rfl⟩

theorem assignScores_fields (hooks : SolverHooks) (st : SolverState) (c : Candidate) :
    (assignScores hooks st c).port = c.port ∧
    (assignScores hooks st c).ripRequired = c.ripRequired ∧
    (assignScores hooks st c).parent? = c.parent? ∧
    (assignScores hooks st c).lastRegion = c.lastRegion ∧
    (assignScores hooks st c).lastPort = c.lastPort ∧
    (assignScores hooks st c).h = computeH hooks st c ∧
    (assignScores hooks st c).g = computeG hooks st c ∧
    (assignScores hooks st c).f =
      computeG hooks st c + computeH hooks st c * st.greedyMultiplier := by
  cases c <;>
    exact ⟨rfl, rfl, rfl, rfl, rfl, rfl, rfl, rfl⟩

theorem findRegion_regionId {g : HyperGraph} {rid : RegionId} {r : Region}
    (h : findRegion g rid = some r) : r.regionId = rid := by
  unfold findRegion at h
  have := List.find?_some h
  simpa using this

/-- C1: every expansion candidate produced by getNextCandidates (under
any selection hook that returns a subset, as the source's
selectCandidatesForEnteringRegion contract requires) carries
g = parent.g + increased-region-cost(traversed region, parent port, new
port) + (ripCost when ripRequired) + port-usage-penalty(new port), and
f = g + greedyMultiplier * h (HyperGraphSolver.computeG lines 146-157
and getNextCandidates lines 208-215). -/
theorem c1_expansion_scores (hooks : SolverHooks) (st : SolverState) (c : Candidate)
    (hsel : ∀ (l : List Candidate), ∀ x ∈ hooks.selectCandidatesForEnteringRegion l, x ∈ l) :
    ∀ c' ∈ getNextCandidates hooks st c,
      c'.parent? = some c ∧
      c'.lastRegion = c.nextRegion ∧
      c'.lastPort = some c.port ∧
      c'.g = c.g +
          hooks.computeIncreasedRegionCostIfPortsAreUsed st (c.nextRegion.getD default)
            c.port c'.port +
          (if c'.ripRequired then st.ripCost else 0) +
          hooks.getPortUsagePenalty st c'.port ∧
      c'.f = c'.g + st.greedyMultiplier * c'.h := by
  intro c' hc'
  unfold getNextCandidates at hc'
  cases hnr : c.nextRegion with
  | none => rw [hnr] at hc'; simp at hc'
  | some curRid =>
    rw [hnr] at hc'
    dsimp only at hc'
    cases hfr : findRegion st.graph curRid with
    | none => rw [hfr] at hc'; simp at hc'
    | some currentRegion =>
      rw [hfr] at hc'
      dsimp only at hc'
      have hrid : currentRegion.regionId = curRid := findRegion_regionId hfr
      rw [List.mem_map] at hc'
      obtain ⟨c₀, hc₀, rfl⟩ := hc'
      rw [List.mem_flatMap] at hc₀
      obtain ⟨grp, hgrp, hc₀sel⟩ := hc₀
      have hc₀grp := hsel _ _ hc₀sel
      have hc₀raw := mem_groupByNextRegion hgrp _ hc₀grp
      obtain ⟨d, rfl, hdlp, hdlr⟩ := mem_rawNextCandidates _ hc₀raw
      obtain ⟨hp, hrr, hpar, hlr, hlp, hh, hg, hf⟩ :=
        assignScores_fields hooks st (Candidate.child d c)
      refine ⟨?_, ?_, ?_, ?_, ?_⟩
      · rw [hpar]; rfl
      · rw [hlr]
        show d.lastRegion = some curRid
        rw [hdlr, hrid]
      · rw [hlp]
        exact hdlp
      · rw [hg, hp, hrr]
        unfold computeG
        have h1 : (Candidate.child d c).parentG = c.g := rfl
        have h2 : (Candidate.child d c).lastRegion.getD default =
            (some curRid).getD default := by
          show d.lastRegion.getD default = curRid
          rw [hdlr, hrid]
          rfl
        have h3 : (Candidate.child d c).lastPort.getD (Candidate.child d c).port =
            c.port := by
          show d.lastPort.getD d.port = c.port
          rw [hdlp]
          rfl
        rw [h1, h2, h3]
      · rw [hf, hg, hh]
        ring

/-! ### C1 fixtures and witness -/

def portBC : RegionPort := ⟨"p2", "B", "C"⟩

def regionB2 : Region := ⟨"B", [portAB, portBC]⟩

def regionC : Region := ⟨"C", [portBC]⟩

/-- A three-region chain A - B - C. -/
def threeRegionGraph : HyperGraph := ⟨[portAB, portBC], [regionA, regionB2, regionC]⟩

def connAC : Connection := ⟨"c3", "N1", regionA, regionC⟩

/-- The solver state right after construction on the chain graph. -/
def stChain : SolverState := mkSolver threeRegionGraph [connAC] [] 1 false 0

/-- The pre-score expansion of the chain's root candidate into region
B. -/
def chainChildRaw : Candidate :=
  Candidate.child
    { port := portBC, g := 0, h := 0, f := 0, hops := 1
      lastPort := some portAB, lastRegion := some "B"
      nextRegion := some "C", ripRequired := false }
    (rootCandidate connAC portAB)

/-- The scored expansion candidate produced by getNextCandidates on the
chain graph. -/
def chainChild : Candidate := assignScores baseHooks stChain chainChildRaw

theorem chainChild_mem :
    chainChild ∈ getNextCandidates baseHooks stChain (rootCandidate connAC portAB) := by
  rw [show getNextCandidates baseHooks stChain (rootCandidate connAC portAB) =
    [chainChild] from rfl]
  exact List.mem_singleton.2 rfl

/-- Witness for C1 at a concrete expansion. -/
theorem c1_witness :
    chainChild.parent? = some (rootCandidate connAC portAB) ∧
    chainChild.lastRegion = (rootCandidate connAC portAB).nextRegion ∧
    chainChild.lastPort = some (rootCandidate connAC portAB).port ∧
    chainChild.g = (rootCandidate connAC portAB).g +
        baseHooks.computeIncreasedRegionCostIfPortsAreUsed stChain
          ((rootCandidate connAC portAB).nextRegion.getD default)
          (rootCandidate connAC portAB).port chainChild.port +
        (if chainChild.ripRequired then stChain.ripCost else 0) +
        baseHooks.getPortUsagePenalty stChain chainChild.port ∧
    chainChild.f = chainChild.g + stChain.greedyMultiplier * chainChild.h :=
  c1_expansion_scores baseHooks stChain (rootCandidate connAC portAB)
    (fun _ _ hx => hx) chainChild chainChild_mem

/-! ### C2 -/

theorem findProcessableFuel_processed :
    ∀ (fuel : Nat) (visited : List (PortId × Cost)) (q : List Candidate)
      (c : Candidate) (q' : List Candidate),
      findProcessableFuel visited fuel q = some (c, q') →
      getEntry visited c.port.portId = none ∨
        ∃ v, getEntry visited c.port.portId = some v ∧ c.g < v := by
  intro fuel
  induction fuel with
  | zero => intro visited q c q' h; simp [findProcessableFuel] at h
  | succ n ih =>
    intro visited q c q' h
    simp only [findProcessableFuel] at h
    cases hq : dequeueMin q with
    | none => rw [hq] at h; simp at h
    | some p =>
      obtain ⟨c0, q0⟩ := p
      rw [hq] at h
      dsimp only at h
      cases hv : getEntry visited c0.port.portId with
      | none =>
        rw [hv] at h
        simp only [Option.some.injEq, Prod.mk.injEq] at h
        obtain ⟨h1, h2⟩ := h
        subst h1
        exact Or.inl hv
      | some v =>
        rw [hv] at h
        by_cases hlt : c0.g < v
        · simp only [hlt, if_true, Option.some.injEq, Prod.mk.injEq] at h
          obtain ⟨h1, h2⟩ := h
          subst h1
          exact Or.inr ⟨v, hv, hlt⟩
        · simp only [hlt, if_false] at h
          exact ih visited q0 c q' h

/-- C2: in every step, a dequeued candidate whose port is recorded in
the per-connection visited map with a g no worse than its own is skipped
and the next candidate is popped; a candidate is returned for processing
only when its port is unvisited or its g strictly improves on the
recorded score; a processed candidate's g is recorded in the visited
map, and the step proceeds on that recorded state
(HyperGraphSolver.step lines 347-377). -/
theorem c2_revisit_filter :
    (∀ (visited : List (PortId × Cost)) (q : List Candidate) (c : Candidate)
        (q' : List Candidate) (v : Cost),
        dequeueMin q = some (c, q') →
        getEntry visited c.port.portId = some v → v ≤ c.g →
        findProcessable visited q = findProcessable visited q') ∧
    (∀ (visited : List (PortId × Cost)) (q : List Candidate) (c : Candidate)
        (q' : List Candidate),
        findProcessable visited q = some (c, q') →
        getEntry visited c.port.portId = none ∨
          ∃ v, getEntry visited c.port.portId = some v ∧ c.g < v) ∧
    (∀ (st : SolverState) (c : Candidate) (q' : List Candidate),
        getEntry (recordVisited st c q').visitedPoints c.port.portId = some c.g) ∧
    (∀ (hooks : SolverHooks) (st : SolverState) (c : Candidate) (q' : List Candidate),
        findProcessable st.visitedPoints st.candidateQueue = some (c, q') →
        stepSolver hooks st = stepWithCandidate hooks st c q') := by
  refine ⟨?_, ?_, ?_, ?_⟩
  · intro visited q c q' v hq hv hle
    unfold findProcessable
    have hlen := dequeueMin_length hq
    rw [← hlen]
    simp only [findProcessableFuel, hq, hv]
    have hnlt : ¬ c.g < v := not_lt.2 hle
    simp [hnlt]
  · intro visited q c q' h
    exact findProcessableFuel_processed q.length visited q c q' h
  · intro st c q'
    exact getEntry_set_self _ _ _
  · intro hooks st c q' h
    unfold stepSolver
    rw [h]

/-- Witness for C2 at concrete queues and visited maps. -/
theorem c2_witness :
    (findProcessable [("p", (0 : Cost))] [rootCandidate connAB1 portAB] =
        findProcessable [("p", (0 : Cost))] []) ∧
    (getEntry [("q", (5 : Cost))] (rootCandidate connAB1 portAB).port.portId = none ∨
      ∃ v, getEntry [("q", (5 : Cost))] (rootCandidate connAB1 portAB).port.portId
          = some v ∧ (rootCandidate connAB1 portAB).g < v) ∧
    (stepSolver baseHooks (mkSolver twoRegionGraph [connAB1] [] 1 false 0) =
      stepWithCandidate baseHooks (mkSolver twoRegionGraph [connAB1] [] 1 false 0)
        (rootCandidate connAB1 portAB) []) :=
  ⟨c2_revisit_filter.1 [("p", (0 : Cost))] [rootCandidate connAB1 portAB]
      (rootCandidate connAB1 portAB) [] 0 (by decide) (by decide) (by decide),
    c2_revisit_filter.2.1 [("q", (5 : Cost))] [rootCandidate connAB1 portAB]
      (rootCandidate connAB1 portAB) [] (by decide),
    c2_revisit_filter.2.2.2 baseHooks (mkSolver twoRegionGraph [connAB1] [] 1 false 0)
      (rootCandidate connAB1 portAB) [] (by decide)⟩

/-! ### C3 -/

theorem ripPortUpdate_portAssignments (s : SolverState) (p : RegionPort) :
    (ripPortUpdate s p).portAssignments = setEntry s.portAssignments p.portId none :=
  rfl

theorem ripPortUpdate_ripCounts (s : SolverState) (p : RegionPort) :
    (ripPortUpdate s p).ripCounts =
      setEntry s.ripCounts p.portId (s.ripCount p.portId + 1) :=
  rfl

theorem ripPortUpdate_solvedRoutes (s : SolverState) (p : RegionPort) :
    (ripPortUpdate s p).solvedRoutes = s.solvedRoutes := rfl

theorem ripPortUpdate_unprocessed (s : SolverState) (p : RegionPort) :
    (ripPortUpdate s p).unprocessedConnections = s.unprocessedConnections := rfl

theorem ripKeep_iff (p : RegionPort) (a : RegionPortAssignment) :
    ripKeep p a = true ↔
      a.regionPort1.portId ≠ p.portId ∧ a.regionPort2.portId ≠ p.portId := by
  simp [ripKeep]

/-- Region assignment lists only shrink across a rip-port step. -/
theorem ripPortUpdate_region_mono (s : SolverState) (p : RegionPort) (rid : RegionId) :
    ∀ a ∈ (ripPortUpdate s p).regionAssignList rid, a ∈ s.regionAssignList rid := by
  intro a ha
  unfold ripPortUpdate at ha
  unfold SolverState.regionAssignList at ha ⊢
  by_cases h2 : p.region2 = rid
  · rw [← h2] at ha ⊢
    rw [getEntry_set_self] at ha
    simp only [Option.getD_some] at ha
    have ha2 := List.mem_of_mem_filter ha
    by_cases h1 : p.region1 = p.region2
    · rw [← h1] at ha2 ⊢
      rw [getEntry_set_self] at ha2
      simp only [Option.getD_some] at ha2
      exact List.mem_of_mem_filter ha2
    · rw [getEntry_set_ne _ _ _ _ h1] at ha2
      exact ha2
  · rw [getEntry_set_ne _ _ _ _ h2] at ha
    by_cases h1 : p.region1 = rid
    · rw [← h1] at ha ⊢
      rw [getEntry_set_self] at ha
      simp only [Option.getD_some] at ha
      exact List.mem_of_mem_filter ha
    · rw [getEntry_set_ne _ _ _ _ h1] at ha
      exact ha

/-- After a rip-port step, neither adjacent region of the ripped port
retains a record involving it. -/
theorem ripPortUpdate_region_cleared (s : SolverState) (p : RegionPort) (rid : RegionId)
    (hrid : rid = p.region1 ∨ rid = p.region2) :
    ∀ a ∈ (ripPortUpdate s p).regionAssignList rid,
      a.regionPort1.portId ≠ p.portId ∧ a.regionPort2.portId ≠ p.portId := by
  intro a ha
  unfold ripPortUpdate at ha
  unfold SolverState.regionAssignList at ha
  by_cases h2 : p.region2 = rid
  · rw [← h2] at ha
    rw [getEntry_set_self] at ha
    simp only [Option.getD_some] at ha
    exact (ripKeep_iff p a).1 (List.of_mem_filter ha)
  · have h1 : p.region1 = rid := by
      rcases hrid with h | h
      · exact h.symm
      · exact absurd h.symm h2
    rw [getEntry_set_ne _ _ _ _ h2] at ha
    rw [← h1] at ha
    rw [getEntry_set_self] at ha
    simp only [Option.getD_some] at ha
    exact (ripKeep_iff p a).1 (List.of_mem_filter ha)

theorem ripFold_solvedRoutes (l : List RegionPort) (s : SolverState) :
    (l.foldl ripPortUpdate s).solvedRoutes = s.solvedRoutes := by
  induction l generalizing s with
  | nil => rfl
  | cons q rest ih => simp only [List.foldl_cons]; rw [ih, ripPortUpdate_solvedRoutes]

theorem ripFold_unprocessed (l : List RegionPort) (s : SolverState) :
    (l.foldl ripPortUpdate s).unprocessedConnections = s.unprocessedConnections := by
  induction l generalizing s with
  | nil => rfl
  | cons q rest ih => simp only [List.foldl_cons]; rw [ih, ripPortUpdate_unprocessed]

theorem ripFold_portAssignment_stable (l : List RegionPort) (s : SolverState)
    (pid : PortId) (h : s.portAssignment pid = none) :
    (l.foldl ripPortUpdate s).portAssignment pid = none := by
  induction l generalizing s with
  | nil => exact h
  | cons q rest ih =>
    simp only [List.foldl_cons]
    apply ih
    unfold SolverState.portAssignment
    rw [ripPortUpdate_portAssignments]
    by_cases hq : q.portId = pid
    · rw [← hq, getEntry_set_self]; rfl
    · rw [getEntry_set_ne _ _ _ _ hq]; exact h

theorem ripFold_portAssignment_none (l : List RegionPort) (s : SolverState)
    (p : RegionPort) (hp : p ∈ l) :
    (l.foldl ripPortUpdate s).portAssignment p.portId = none := by
  induction l generalizing s with
  | nil => simp at hp
  | cons q rest ih =>
    simp only [List.foldl_cons]
    rcases List.mem_cons.1 hp with rfl | hp2
    · apply ripFold_portAssignment_stable
      unfold SolverState.portAssignment
      rw [ripPortUpdate_portAssignments, getEntry_set_self]
      rfl
    · exact ih _ hp2

theorem ripFold_ripCount_stable (l : List RegionPort) (s : SolverState)
    (pid : PortId) (h : ∀ x ∈ l, x.portId ≠ pid) :
    (l.foldl ripPortUpdate s).ripCount pid = s.ripCount pid := by
  induction l generalizing s with
  | nil => rfl
  | cons q rest ih =>
    simp only [List.foldl_cons]
    rw [ih _ (fun x hx => h x (List.mem_cons_of_mem _ hx))]
    unfold SolverState.ripCount
    rw [ripPortUpdate_ripCounts, getEntry_set_ne _ _ _ _ (h q (List.mem_cons_self _ _))]

theorem ripFold_ripCount (l : List RegionPort) (s : SolverState) (p : RegionPort)
    (hnodup : (l.map RegionPort.portId).Nodup) (hp : p ∈ l) :
    (l.foldl ripPortUpdate s).ripCount p.portId = s.ripCount p.portId + 1 := by
  induction l generalizing s with
  | nil => simp at hp
  | cons q rest ih =>
    simp only [List.map_cons, List.nodup_cons] at hnodup
    obtain ⟨hqrest, hrestnodup⟩ := hnodup
    simp only [List.foldl_cons]
    rcases List.mem_cons.1 hp with rfl | hp2
    · rw [ripFold_ripCount_stable _ _ _ (fun x hx hxp =>
        hqrest (by rw [← hxp]; exact List.mem_map_of_mem _ hx))]
      unfold SolverState.ripCount
      rw [ripPortUpdate_ripCounts, getEntry_set_self]
      rfl
    · have hqp : q.portId ≠ p.portId := by
        intro he
        exact hqrest (he ▸ List.mem_map_of_mem _ hp2)
      rw [ih _ hrestnodup hp2]
      unfold SolverState.ripCount
      rw [ripPortUpdate_ripCounts, getEntry_set_ne _ _ _ _ hqp]

theorem ripFold_region_stable (l : List RegionPort) (s : SolverState)
    (rid : RegionId) (P : RegionPortAssignment → Prop)
    (h : ∀ a ∈ s.regionAssignList rid, P a) :
    ∀ a ∈ (l.foldl ripPortUpdate s).regionAssignList rid, P a := by
  induction l generalizing s with
  | nil => exact h
  | cons q rest ih =>
    simp only [List.foldl_cons]
    exact ih _ (fun a ha => h a (ripPortUpdate_region_mono s q rid a ha))

theorem ripFold_region_cleared (l : List RegionPort) (s : SolverState)
    (p : RegionPort) (hp : p ∈ l) (rid : RegionId)
    (hrid : rid = p.region1 ∨ rid = p.region2) :
    ∀ a ∈ (l.foldl ripPortUpdate s).regionAssignList rid,
      a.regionPort1.portId ≠ p.portId ∧ a.regionPort2.portId ≠ p.portId := by
  induction l generalizing s with
  | nil => simp at hp
  | cons q rest ih =>
    simp only [List.foldl_cons]
    rcases List.mem_cons.1 hp with rfl | hp2
    · exact ripFold_region_stable rest _ rid _
        (ripPortUpdate_region_cleared s p rid hrid)
    · exact ih _ hp2

/-- C3: for a ripped solved route whose path ports are pairwise distinct
(an invariant of engine-produced routes), the route leaves solvedRoutes,
its connection is appended to the unprocessed queue, every path port has
its assignment cleared and its ripCount incremented by exactly one, and
neither adjacent region of any path port retains an assignment record
involving it (HyperGraphSolver.ripSolvedRoute lines 310-323). -/
theorem c3_rip_accounting (st : SolverState) (r : SolvedRoute)
    (hnodup : ((r.path.map Candidate.port).map RegionPort.portId).Nodup) :
    r ∉ (ripSolvedRoute st r).solvedRoutes ∧
    (ripSolvedRoute st r).unprocessedConnections =
      st.unprocessedConnections ++ [r.connection] ∧
    ∀ p ∈ r.path.map Candidate.port,
      (ripSolvedRoute st r).portAssignment p.portId = none ∧
      (ripSolvedRoute st r).ripCount p.portId = st.ripCount p.portId + 1 ∧
      ∀ rid, rid = p.region1 ∨ rid = p.region2 →
        ∀ a ∈ (ripSolvedRoute st r).regionAssignList rid,
          a.regionPort1.portId ≠ p.portId ∧ a.regionPort2.portId ≠ p.portId := by
  refine ⟨?_, ?_, ?_⟩
  · intro hmem
    unfold ripSolvedRoute at hmem
    have := List.of_mem_filter hmem
    simp at this
  · show ((r.path.map Candidate.port).foldl ripPortUpdate st).unprocessedConnections
      ++ [r.connection] = st.unprocessedConnections ++ [r.connection]
    rw [ripFold_unprocessed]
  · intro p hp
    refine ⟨?_, ?_, ?_⟩
    · show ((r.path.map Candidate.port).foldl ripPortUpdate st).portAssignment p.portId
        = none
      exact ripFold_portAssignment_none _ _ _ hp
    · show ((r.path.map Candidate.port).foldl ripPortUpdate st).ripCount p.portId
        = st.ripCount p.portId + 1
      exact ripFold_ripCount _ _ _ hnodup hp
    · intro rid hrid a ha
      exact ripFold_region_cleared _ _ _ hp rid hrid a ha

/-- Witness for C3 at a concrete rip. -/
theorem c3_witness :
    (⟨0, [rootCandidate connAB1 portAB], connAB1, false⟩ : SolvedRoute) ∉
      (ripSolvedRoute (mkSolver twoRegionGraph [connAB1] [] 1 false 0)
        ⟨0, [rootCandidate connAB1 portAB], connAB1, false⟩).solvedRoutes ∧
    (ripSolvedRoute (mkSolver twoRegionGraph [connAB1] [] 1 false 0)
        ⟨0, [rootCandidate connAB1 portAB], connAB1, false⟩).unprocessedConnections =
      (mkSolver twoRegionGraph [connAB1] [] 1 false 0).unprocessedConnections ++
        [(⟨0, [rootCandidate connAB1 portAB], connAB1, false⟩ : SolvedRoute).connection] ∧
    ∀ p ∈ (⟨0, [rootCandidate connAB1 portAB], connAB1, false⟩ : SolvedRoute).path.map
        Candidate.port,
      (ripSolvedRoute (mkSolver twoRegionGraph [connAB1] [] 1 false 0)
          ⟨0, [rootCandidate connAB1 portAB], connAB1, false⟩).portAssignment p.portId
        = none ∧
      (ripSolvedRoute (mkSolver twoRegionGraph [connAB1] [] 1 false 0)
          ⟨0, [rootCandidate connAB1 portAB], connAB1, false⟩).ripCount p.portId =
        (mkSolver twoRegionGraph [connAB1] [] 1 false 0).ripCount p.portId + 1 ∧
      ∀ rid, rid = p.region1 ∨ rid = p.region2 →
        ∀ a ∈ (ripSolvedRoute (mkSolver twoRegionGraph [connAB1] [] 1 false 0)
            ⟨0, [rootCandidate connAB1 portAB], connAB1, false⟩).regionAssignList rid,
          a.regionPort1.portId ≠ p.portId ∧ a.regionPort2.portId ≠ p.portId :=
  c3_rip_accounting (mkSolver twoRegionGraph [connAB1] [] 1 false 0)
    ⟨0, [rootCandidate connAB1 portAB], connAB1, false⟩ (by decide)

/-! ### C4 -/

/-- The solved routes whose path references a given port. -/
def routesReferencing (st : SolverState) (pid : PortId) : List SolvedRoute :=
  st.solvedRoutes.filter (fun r => r.path.any (fun c => c.port.portId = pid))

/-- The port-assignment-uniqueness invariant (spec 8.1) as an
executable check: every port with a live assignment is referenced by
exactly one solved route, whose path contains it exactly once. -/
def portAssignmentUniquenessHolds (st : SolverState) : Bool :=
  st.graph.ports.all (fun p =>
    match st.portAssignment p.portId with
    | none => true
    | some _ =>
      (routesReferencing st p.portId).length == 1 &&
        (routesReferencing st p.portId).all
          (fun r => r.path.countP (fun c => c.port.portId == p.portId) == 1))

/-- The final state of the two-connection run over the shared-port
graph: connection c1 (net N1) routes through p, then connection c2 (net
N2) starts at p; its root candidate is created with ripRequired=false
(beginNewConnection line 338) despite p carrying c1's assignment, so the
install overwrites p's assignment without ripping c1's route. -/
def overwriteRunFinal : SolverState :=
  runSteps baseHooks 2 (mkSolver twoRegionGraph [connAB1, connAB2] [] 1 true 0)

/-- C4: the port-assignment-uniqueness invariant is violated by the
code. On the concrete two-connection input the engine terminates
solved, port p holds a live assignment, yet two routes in solvedRoutes
reference p, so the invariant check fails
(HyperGraphSolver.processSolvedRoute lines 269-287 and
beginNewConnection lines 325-345). -/
theorem c4_uniqueness_violated :
    overwriteRunFinal.solved = true ∧
    overwriteRunFinal.portAssignment portAB.portId ≠ none ∧
    (routesReferencing overwriteRunFinal portAB.portId).length = 2 ∧
    portAssignmentUniquenessHolds overwriteRunFinal = false := by
  refine ⟨by decide, by decide, by decide, by decide⟩

/-! ### C9 -/

/-- The final state of the single-connection run over the shared-port
graph (a single-cell problem: one connection between two adjacent
regions). -/
def singleCellRunFinal : SolverState :=
  runSteps baseHooks 1 (mkSolver twoRegionGraph [connAB1] [] 1 false 0)

/-- C9 counterexample: on a single-cell problem with one connection
between two adjacent regions sharing a port, the solve succeeds with no
rips, but the solved route's path contains exactly 1 candidate, not 2:
the start-region root candidate already has the end region as its
nextRegion, so the goal test fires on the parent-chain root and the
reconstructed path is a single candidate. -/
theorem c9_counterexample :
    singleCellRunFinal.solved = true ∧
    singleCellRunFinal.solvedRoutes.map (fun r => r.path.length) = [1] ∧
    singleCellRunFinal.solvedRoutes.map (fun r => r.requiredRip) = [false] ∧
    singleCellRunFinal.ripCount portAB.portId = 0 := by
  refine ⟨by decide, by decide, by decide, by decide⟩

/-! ### C9 amended: machinery -/

theorem dequeueMin_mem :
    ∀ {q : List Candidate} {c : Candidate} {q' : List Candidate},
      dequeueMin q = some (c, q') → c ∈ q := by
  intro q
  induction q with
  | nil => intro c q' h; simp [dequeueMin] at h
  | cons a rest ih =>
    intro c q' h
    rw [dequeueMin_cons] at h
    cases hr : dequeueMin rest with
    | none =>
      rw [hr] at h
      simp only [Option.some.injEq, Prod.mk.injEq] at h
      exact h.1 ▸ List.mem_cons_self _ _
    | some p =>
      obtain ⟨m, rest'⟩ := p
      rw [hr] at h
      by_cases hf : a.f ≤ m.f
      · simp only [hf, if_true, Option.some.injEq, Prod.mk.injEq] at h
        exact h.1 ▸ List.mem_cons_self _ _
      · simp only [hf, if_false, Option.some.injEq, Prod.mk.injEq] at h
        exact h.1 ▸ List.mem_cons_of_mem _ (ih hr)

theorem dequeueMin_head_of_min (c : Candidate) (rest : List Candidate)
    (h : ∀ x ∈ rest, c.f ≤ x.f) : dequeueMin (c :: rest) = some (c, rest) := by
  rw [dequeueMin_cons]
  cases hr : dequeueMin rest with
  | none =>
    cases rest with
    | nil => rfl
    | cons b rs => exact absurd hr (dequeueMin_ne_none b rs)
  | some p =>
    obtain ⟨m, rest'⟩ := p
    have hm : m ∈ rest := dequeueMin_mem hr
    simp [h m hm]

theorem findProcessable_of_unvisited (visited : List (PortId × Cost))
    (q : List Candidate) (c : Candidate) (q' : List Candidate)
    (hdq : dequeueMin q = some (c, q'))
    (hvis : getEntry visited c.port.portId = none) :
    findProcessable visited q = some (c, q') := by
  unfold findProcessable
  have hlen := dequeueMin_length hdq
  rw [← hlen]
  simp [findProcessableFuel, hdq, hvis]

theorem stepSolver_of_fp (hooks : SolverHooks) (st : SolverState) (c : Candidate)
    (q' : List Candidate)
    (h : findProcessable st.visitedPoints st.candidateQueue = some (c, q')) :
    stepSolver hooks st = stepWithCandidate hooks st c q' := by
  unfold stepSolver
  rw [h]

theorem runSteps_succ_active (hooks : SolverHooks) (n : Nat) (st : SolverState)
    (h1 : st.solved = false) (h2 : st.failed = false) :
    runSteps hooks (n + 1) st = runSteps hooks n (stepSolver hooks st) := by
  simp [runSteps, h1, h2]

theorem mem_rawNextCandidates_full {st : SolverState} {c : Candidate}
    {currentRegion : Region} :
    ∀ c' ∈ rawNextCandidates st c currentRegion,
      ∃ (port : RegionPort) (rr : Bool), port ∈ currentRegion.ports ∧
        c' = Candidate.child
          { port := port, g := 0, h := 0, f := 0, hops := c.hops + 1
            lastPort := some c.port, lastRegion := some currentRegion.regionId
            nextRegion := some (otherRegionId port currentRegion.regionId)
            ripRequired := rr } c ∧
        (st.portAssignment port.portId = none → rr = false) := by
  intro c' hc'
  unfold rawNextCandidates at hc'
  rw [List.mem_filterMap] at hc'
  obtain ⟨port, hport, heq⟩ := hc'
  by_cases hsame : port.portId = c.port.portId
  · simp only [hsame, if_true] at heq
    cases heq
  · simp only [hsame, if_false] at heq
    by_cases hskip : (!st.rippingEnabled &&
        match st.portAssignment port.portId with
        | some a => decide (a.connection.mutuallyConnectedNetworkId ≠ st.currentNet)
        | none => false) = true
    · rw [if_pos hskip] at heq
      cases heq
    · rw [if_neg hskip] at heq
      obtain rfl := Option.some.inj heq
      refine ⟨port, _, hport, rfl, ?_⟩
      intro hnone
      rw [hnone]

theorem mem_getNextCandidates (hooks : SolverHooks) (st : SolverState) (c : Candidate)
    (hsel : ∀ (l : List Candidate), ∀ x ∈ hooks.selectCandidatesForEnteringRegion l, x ∈ l) :
    ∀ c' ∈ getNextCandidates hooks st c,
      ∃ (curRid : RegionId) (currentRegion : Region) (c₀ : Candidate),
        c.nextRegion = some curRid ∧
        findRegion st.graph curRid = some currentRegion ∧
        c₀ ∈ rawNextCandidates st c currentRegion ∧
        c' = assignScores hooks st c₀ := by
  intro c' hc'
  unfold getNextCandidates at hc'
  cases hnr : c.nextRegion with
  | none => rw [hnr] at hc'; simp at hc'
  | some curRid =>
    rw [hnr] at hc'
    dsimp only at hc'
    cases hfr : findRegion st.graph curRid with
    | none => rw [hfr] at hc'; simp at hc'
    | some currentRegion =>
      rw [hfr] at hc'
      dsimp only at hc'
      rw [List.mem_map] at hc'
      obtain ⟨c₀, hc₀, rfl⟩ := hc'
      rw [List.mem_flatMap] at hc₀
      obtain ⟨grp, hgrp, hc₀sel⟩ := hc₀
      exact ⟨curRid, currentRegion, c₀, rfl, hfr,
        mem_groupByNextRegion hgrp _ (hsel _ _ hc₀sel), rfl⟩

/-- With the base hooks and no port assignments, every expansion
candidate of a zero-g candidate has f = 0. -/
theorem getNext_base_f_zero (st : SolverState) (c : Candidate)
    (hassign : st.portAssignments = []) (hg : c.g = 0) :
    ∀ c' ∈ getNextCandidates baseHooks st c, c'.f = 0 := by
  intro c' hc'
  obtain ⟨curRid, currentRegion, c₀, hnr, hfr, hc₀raw, rfl⟩ :=
    mem_getNextCandidates baseHooks st c (fun _ _ hx => hx) c' hc'
  obtain ⟨port, rr, hport, rfl, hrr⟩ := mem_rawNextCandidates_full _ hc₀raw
  have hnone : st.portAssignment port.portId = none := by
    unfold SolverState.portAssignment
    rw [hassign]
    rfl
  have hrrf : rr = false := hrr hnone
  obtain ⟨_, _, _, _, _, _, _, hf⟩ :=
    assignScores_fields baseHooks st
      (Candidate.child
        { port := port, g := 0, h := 0, f := 0, hops := c.hops + 1
          lastPort := some c.port, lastRegion := some currentRegion.regionId
          nextRegion := some (otherRegionId port currentRegion.regionId)
          ripRequired := rr } c)
  rw [hf]
  unfold computeG computeH baseHooks
  dsimp only
  have hpar : (Candidate.child
      { port := port, g := 0, h := 0, f := 0, hops := c.hops + 1
        lastPort := some c.port, lastRegion := some currentRegion.regionId
        nextRegion := some (otherRegionId port currentRegion.regionId)
        ripRequired := rr } c).parentG = c.g := rfl
  rw [hpar, hg]
  have hrip : (Candidate.child
      { port := port, g := 0, h := 0, f := 0, hops := c.hops + 1
        lastPort := some c.port, lastRegion := some currentRegion.regionId
        nextRegion := some (otherRegionId port currentRegion.regionId)
        ripRequired := rr } c).ripRequired = false := hrrf
  rw [hrip]
  simp

/-- The state shape maintained while the single-connection search pops
start-region root candidates in order: the queue is the remaining root
candidates followed by already-expanded children (all with f = 0), none
of the remaining start ports has been visited, every start port before
the hitting port does not lead to the end region, and no route has been
installed yet. -/
structure C9MidState (conn : Connection) (endId : RegionId)
    (badPorts : List RegionPort) (phit : RegionPort) (restPorts : List RegionPort)
    (extra : List Candidate) (st : SolverState) : Prop where
  queue_eq : st.candidateQueue =
    (badPorts ++ phit :: restPorts).map (rootCandidate conn) ++ extra
  extra_f : ∀ c ∈ extra, c.f = 0
  ids_nodup : ((badPorts ++ phit :: restPorts).map RegionPort.portId).Nodup
  unvisited : ∀ p ∈ badPorts ++ phit :: restPorts,
    getEntry st.visitedPoints p.portId = none
  bad_not_end : ∀ p ∈ badPorts, otherRegionId p conn.startRegion.regionId ≠ endId
  hit_end : otherRegionId phit conn.startRegion.regionId = endId
  cur_end : st.currentEndRegion = some endId
  cur_conn : st.currentConnection = some conn
  unprocessed_nil : st.unprocessedConnections = []
  routes_nil : st.solvedRoutes = []
  assigns_nil : st.portAssignments = []
  not_solved : st.solved = false
  not_failed : st.failed = false

theorem processSolvedRoute_base_root (st : SolverState) (conn : Connection)
    (phit : RegionPort) (hconn : st.currentConnection = some conn) :
    processSolvedRoute baseHooks st (rootCandidate conn phit) =
      { st with
        portAssignments := setEntry st.portAssignments phit.portId
          (some ⟨⟨st.nextRouteId, [rootCandidate conn phit], conn, false⟩, conn⟩)
        solvedRoutes := st.solvedRoutes ++
          [⟨st.nextRouteId, [rootCandidate conn phit], conn, false⟩]
        nextRouteId := st.nextRouteId + 1 } := by
  unfold processSolvedRoute
  conv_lhs => rw [hconn]
  rfl

theorem recordVisited_currentEndRegion (st : SolverState) (c : Candidate)
    (q' : List Candidate) :
    (recordVisited st c q').currentEndRegion = st.currentEndRegion := rfl

theorem rootCandidate_nextRegion (conn : Connection) (p : RegionPort) :
    (rootCandidate conn p).nextRegion =
      some (otherRegionId p conn.startRegion.regionId) := rfl

theorem rootCandidate_f (conn : Connection) (p : RegionPort) :
    (rootCandidate conn p).f = 0 := rfl

/-- The root-popping loop of the single-connection search: from any
mid-search state it runs to a solved state whose only route is the
single-candidate path through the first start port adjacent to the end
region, with rip counts untouched. -/
theorem c9_run (conn : Connection) (endId : RegionId) :
    ∀ (badPorts : List RegionPort) (phit : RegionPort) (restPorts : List RegionPort)
      (extra : List Candidate) (st : SolverState),
      C9MidState conn endId badPorts phit restPorts extra st →
      ∃ n : Nat, (runSteps baseHooks n st).solved = true ∧
        (runSteps baseHooks n st).solvedRoutes =
          [⟨st.nextRouteId, [rootCandidate conn phit], conn, false⟩] ∧
        (runSteps baseHooks n st).ripCounts = st.ripCounts := by
  intro badPorts
  induction badPorts with
  | nil =>
    intro phit restPorts extra st hgs
    obtain ⟨hq, hef, hnd, hunv, hbad, hhit, hce, hcc, hup, hsr, hpa, hns, hnf⟩ := hgs
    refine ⟨1, ?_⟩
    have hq' : st.candidateQueue = rootCandidate conn phit ::
        (restPorts.map (rootCandidate conn) ++ extra) := by
      simpa using hq
    have hall : ∀ x ∈ restPorts.map (rootCandidate conn) ++ extra,
        (rootCandidate conn phit).f ≤ x.f := by
      intro x hx
      have hf0 : x.f = 0 := by
        rcases List.mem_append.1 hx with hx1 | hx2
        · obtain ⟨p, _, rfl⟩ := List.mem_map.1 hx1
          rfl
        · exact hef x hx2
      rw [hf0, rootCandidate_f]
    have hdq : dequeueMin st.candidateQueue =
        some (rootCandidate conn phit, restPorts.map (rootCandidate conn) ++ extra) := by
      rw [hq']
      exact dequeueMin_head_of_min _ _ hall
    have hfp : findProcessable st.visitedPoints st.candidateQueue =
        some (rootCandidate conn phit, restPorts.map (rootCandidate conn) ++ extra) :=
      findProcessable_of_unvisited _ _ _ _ hdq (hunv phit (by simp))
    have h1 : runSteps baseHooks 1 st = stepSolver baseHooks st := by
      simp [runSteps, hns, hnf]
    rw [h1, stepSolver_of_fp _ _ _ _ hfp]
    unfold stepWithCandidate
    dsimp only
    have hgoal : goalReached
        (recordVisited st (rootCandidate conn phit)
          (restPorts.map (rootCandidate conn) ++ extra)) (rootCandidate conn phit)
          = true := by
      unfold goalReached
      rw [recordVisited_currentEndRegion, hce, rootCandidate_nextRegion, hhit]
      simp
    rw [hgoal]
    simp only [if_true]
    have hcc' : (recordVisited st (rootCandidate conn phit)
        (restPorts.map (rootCandidate conn) ++ extra)).currentConnection = some conn := hcc
    rw [processSolvedRoute_base_root _ conn phit hcc']
    have hupe : (({ recordVisited st (rootCandidate conn phit)
          (restPorts.map (rootCandidate conn) ++ extra) with
        portAssignments := setEntry (recordVisited st (rootCandidate conn phit)
          (restPorts.map (rootCandidate conn) ++ extra)).portAssignments phit.portId
          (some ⟨⟨st.nextRouteId, [rootCandidate conn phit], conn, false⟩, conn⟩)
        solvedRoutes := (recordVisited st (rootCandidate conn phit)
          (restPorts.map (rootCandidate conn) ++ extra)).solvedRoutes ++
          [⟨st.nextRouteId, [rootCandidate conn phit], conn, false⟩]
        nextRouteId := st.nextRouteId + 1 } : SolverState)).unprocessedConnections
        = [] := hup
    rw [hupe]
    simp only [List.isEmpty_nil, if_true]
    refine ⟨by trivial, ?_, by trivial⟩
    show st.solvedRoutes ++ [⟨st.nextRouteId, [rootCandidate conn phit], conn, false⟩]
      = [⟨st.nextRouteId, [rootCandidate conn phit], conn, false⟩]
    rw [hsr]
    rfl
  | cons b bad' ih =>
    intro phit restPorts extra st hgs
    obtain ⟨hq, hef, hnd, hunv, hbad, hhit, hce, hcc, hup, hsr, hpa, hns, hnf⟩ := hgs
    have hq' : st.candidateQueue = rootCandidate conn b ::
        ((bad' ++ phit :: restPorts).map (rootCandidate conn) ++ extra) := by
      simpa using hq
    have hall : ∀ x ∈ (bad' ++ phit :: restPorts).map (rootCandidate conn) ++ extra,
        (rootCandidate conn b).f ≤ x.f := by
      intro x hx
      have hf0 : x.f = 0 := by
        rcases List.mem_append.1 hx with hx1 | hx2
        · obtain ⟨p, _, rfl⟩ := List.mem_map.1 hx1
          rfl
        · exact hef x hx2
      rw [hf0, rootCandidate_f]
    have hdq : dequeueMin st.candidateQueue =
        some (rootCandidate conn b,
          (bad' ++ phit :: restPorts).map (rootCandidate conn) ++ extra) := by
      rw [hq']
      exact dequeueMin_head_of_min _ _ hall
    have hfp : findProcessable st.visitedPoints st.candidateQueue =
        some (rootCandidate conn b,
          (bad' ++ phit :: restPorts).map (rootCandidate conn) ++ extra) :=
      findProcessable_of_unvisited _ _ _ _ hdq (hunv b (List.mem_cons_self _ _))
    have hgoal : goalReached
        (recordVisited st (rootCandidate conn b)
          ((bad' ++ phit :: restPorts).map (rootCandidate conn) ++ extra))
        (rootCandidate conn b) = false := by
      unfold goalReached
      rw [recordVisited_currentEndRegion, hce, rootCandidate_nextRegion]
      exact decide_eq_false (hbad b (List.mem_cons_self _ _))
    have hstep : stepSolver baseHooks st =
        { recordVisited st (rootCandidate conn b)
            ((bad' ++ phit :: restPorts).map (rootCandidate conn) ++ extra) with
          candidateQueue :=
            ((bad' ++ phit :: restPorts).map (rootCandidate conn) ++ extra) ++
              getNextCandidates baseHooks
                (recordVisited st (rootCandidate conn b)
                  ((bad' ++ phit :: restPorts).map (rootCandidate conn) ++ extra))
                (rootCandidate conn b) } := by
      rw [stepSolver_of_fp _ _ _ _ hfp]
      unfold stepWithCandidate
      dsimp only
      rw [hgoal]
      simp only [Bool.false_eq_true, if_false]
      rfl
    have hndtail : ((bad' ++ phit :: restPorts).map RegionPort.portId).Nodup := by
      have : ((b :: (bad' ++ phit :: restPorts)).map RegionPort.portId).Nodup := by
        simpa using hnd
      exact (List.nodup_cons.1 this).2
    have hbhead : b.portId ∉ (bad' ++ phit :: restPorts).map RegionPort.portId := by
      have : ((b :: (bad' ++ phit :: restPorts)).map RegionPort.portId).Nodup := by
        simpa using hnd
      exact (List.nodup_cons.1 this).1
    have hmid : C9MidState conn endId bad' phit restPorts
        (extra ++ getNextCandidates baseHooks
          (recordVisited st (rootCandidate conn b)
            ((bad' ++ phit :: restPorts).map (rootCandidate conn) ++ extra))
          (rootCandidate conn b))
        (stepSolver baseHooks st) := by
      rw [hstep]
      refine ⟨?_, ?_, hndtail, ?_, fun p hp => hbad p (List.mem_cons_of_mem _ hp),
        hhit, hce, hcc, hup, hsr, hpa, hns, hnf⟩
      · show ((bad' ++ phit :: restPorts).map (rootCandidate conn) ++ extra) ++
            getNextCandidates baseHooks _ (rootCandidate conn b) = _
        rw [List.append_assoc]
      · intro c hc
        rcases List.mem_append.1 hc with hc1 | hc2
        · exact hef c hc1
        · exact getNext_base_f_zero _ (rootCandidate conn b) hpa rfl c hc2
      · intro p hp
        show getEntry (setEntry st.visitedPoints b.portId (rootCandidate conn b).g)
          p.portId = none
        have hne : b.portId ≠ p.portId := by
          intro he
          exact hbhead (he ▸ List.mem_map_of_mem _ hp)
        rw [getEntry_set_ne _ _ _ _ hne]
        exact hunv p (List.mem_cons_of_mem _ hp)
    obtain ⟨n, hfin1, hfin2, hfin3⟩ := ih phit restPorts _ _ hmid
    refine ⟨n + 1, ?_⟩
    rw [runSteps_succ_active _ _ _ hns hnf]
    have hnr : (stepSolver baseHooks st).nextRouteId = st.nextRouteId := by
      rw [hstep]
      rfl
    have hrc : (stepSolver baseHooks st).ripCounts = st.ripCounts := by
      rw [hstep]
      rfl
    refine ⟨hfin1, ?_, ?_⟩
    · rw [← hnr]
      exact hfin2
    · rw [← hrc]
      exact hfin3

/-- C9 amended: for a single-cell problem with one connection between
two adjacent regions (the start region has a port whose other side is
the end region, taken as the first such port in list order), the solve
succeeds with no rips, and the resulting solved route's path contains
exactly 1 candidate: the goal test already fires on the start-region
root candidate, whose reconstructed parent chain is a single node. -/
theorem c9_amended_single_cell (graph : HyperGraph) (conn : Connection)
    (gm : Cost) (re : Bool) (rc : Cost)
    (badPorts : List RegionPort) (phit : RegionPort) (restPorts : List RegionPort)
    (hports : conn.startRegion.ports = badPorts ++ phit :: restPorts)
    (hnodup : (conn.startRegion.ports.map RegionPort.portId).Nodup)
    (hbad : ∀ p ∈ badPorts,
      otherRegionId p conn.startRegion.regionId ≠ conn.endRegion.regionId)
    (hhit : otherRegionId phit conn.startRegion.regionId = conn.endRegion.regionId) :
    ∃ n : Nat,
      (runSteps baseHooks n (mkSolver graph [conn] [] gm re rc)).solved = true ∧
      (runSteps baseHooks n (mkSolver graph [conn] [] gm re rc)).solvedRoutes =
        [⟨0, [rootCandidate conn phit], conn, false⟩] ∧
      (runSteps baseHooks n (mkSolver graph [conn] [] gm re rc)).solvedRoutes.map
        (fun r => r.path.length) = [1] ∧
      (runSteps baseHooks n (mkSolver graph [conn] [] gm re rc)).solvedRoutes.map
        (fun r => r.requiredRip) = [false] ∧
      ∀ pid : PortId,
        (runSteps baseHooks n (mkSolver graph [conn] [] gm re rc)).ripCount pid = 0 := by
  have hmid : C9MidState conn conn.endRegion.regionId badPorts phit restPorts []
      (mkSolver graph [conn] [] gm re rc) := by
    refine ⟨?_, ?_, ?_, ?_, hbad, hhit, rfl, rfl, rfl, rfl, rfl, rfl, rfl⟩
    · show conn.startRegion.ports.map (rootCandidate conn) = _
      rw [hports, List.append_nil]
    · intro c hc
      simp at hc
    · rw [← hports]
      exact hnodup
    · intro p hp
      rfl
  obtain ⟨n, hfin1, hfin2, hfin3⟩ :=
    c9_run conn conn.endRegion.regionId badPorts phit restPorts []
      (mkSolver graph [conn] [] gm re rc) hmid
  refine ⟨n, hfin1, hfin2, ?_, ?_, ?_⟩
  · rw [hfin2]
    rfl
  · rw [hfin2]
    rfl
  · intro pid
    unfold SolverState.ripCount
    rw [hfin3]
    rfl

/-- Witness for the amended C9 at the concrete single-cell instance. -/
theorem c9_amended_witness :
    ∃ n : Nat,
      (runSteps baseHooks n (mkSolver twoRegionGraph [connAB1] [] 1 false 0)).solved
        = true ∧
      (runSteps baseHooks n (mkSolver twoRegionGraph [connAB1] [] 1 false 0)).solvedRoutes
        = [⟨0, [rootCandidate connAB1 portAB], connAB1, false⟩] ∧
      (runSteps baseHooks n
          (mkSolver twoRegionGraph [connAB1] [] 1 false 0)).solvedRoutes.map
        (fun r => r.path.length) = [1] ∧
      (runSteps baseHooks n
          (mkSolver twoRegionGraph [connAB1] [] 1 false 0)).solvedRoutes.map
        (fun r => r.requiredRip) = [false] ∧
      ∀ pid : PortId,
        (runSteps baseHooks n
          (mkSolver twoRegionGraph [connAB1] [] 1 false 0)).ripCount pid = 0 :=
  c9_amended_single_cell twoRegionGraph connAB1 1 false 0 [] portAB []
    (by decide) (by decide) (by simp) (by decide)

/-! ### C5: the jumper heuristic precomputation
JumperGraphSolver.populateDistanceToEndMaps (lines 77-113) runs a BFS
over region adjacency from each distinct end region and stores, per
port, the minimum of its two adjacent regions' hop distances; a region
never reached keeps Infinity, embedded as none. -/

/-- The ports of the region object with the given id (in the source the
queue holds region references directly; the live graph has one region
object per id). -/
def regionPortsOf (g : HyperGraph) (rid : RegionId) : List RegionPort :=
  match findRegion g rid with
  | some r => r.ports
  | none => []

/-- The inner relaxation loop of the BFS (lines 92-100): for each port
of the dequeued region, insert the other-side region with distance+1
when unseen, and enqueue it. -/
def bfsVisitFold (rid : RegionId) (dist : Nat) (ports : List RegionPort)
    (mq : List (RegionId × Nat) × List (RegionId × Nat)) :
    List (RegionId × Nat) × List (RegionId × Nat) :=
  ports.foldl (fun mq port =>
    let other := otherRegionId port rid
    match getEntry mq.1 other with
    | some _ => mq
    | none => (mq.1 ++ [(other, dist + 1)], mq.2 ++ [(other, dist + 1)])) mq

/-- The BFS while-loop (lines 89-101), fuel-driven; each iteration pops
the queue head. -/
def bfsLoop (g : HyperGraph) : Nat → List (RegionId × Nat) → List (RegionId × Nat) →
    List (RegionId × Nat)
  | 0, m, _ => m
  | _ + 1, m, [] => m
  | fuel + 1, m, (rid, dist) :: qrest =>
    let mq := bfsVisitFold rid dist (regionPortsOf g rid) (m, qrest)
    bfsLoop g fuel mq.1 mq.2

/-- All region ids the BFS can ever insert, plus the start id; its
length bounds the map size. -/
def allRegionIds (g : HyperGraph) (endId : RegionId) : List RegionId :=
  endId :: g.regions.flatMap (fun r => r.ports.flatMap (fun p => [p.region1, p.region2]))

/-- Fuel that provably outlasts the BFS. -/
def bfsFuel (g : HyperGraph) (endId : RegionId) : Nat :=
  1 + 2 * (allRegionIds g endId).length

/-- The regionDistanceMap of populateDistanceToEndMaps for one end
region (lines 83-101). -/
def regionDistanceMap (g : HyperGraph) (endId : RegionId) : List (RegionId × Nat) :=
  bfsLoop g (bfsFuel g endId) [(endId, 0)] [(endId, 0)]

/-- Math.min over hop distances where none embeds Infinity. -/
def minD : Option Nat → Option Nat → Option Nat
  | some a, some b => some (min a b)
  | some a, none => some a
  | none, some b => some b
  | none, none => none

/-- The per-port heuristic value stored by populateDistanceToEndMaps
(lines 104-111): min of the two adjacent regions' BFS distances; none
is the stored Infinity. This is the value estimateCostToEnd (lines
115-119) returns for the port at this end region. -/
def distanceToEndMapEntry (g : HyperGraph) (endId : RegionId) (p : RegionPort) :
    Option Nat :=
  minD (getEntry (regionDistanceMap g endId) p.region1)
    (getEntry (regionDistanceMap g endId) p.region2)

/-- Structural well-formedness of a live graph: every port listed by a
region straddles it, the port's other side is a region of the graph
that also lists the port, and region ids are unique. -/
structure GraphWF (g : HyperGraph) : Prop where
  straddle : ∀ R ∈ g.regions, ∀ p ∈ R.ports,
    p.region1 = R.regionId ∨ p.region2 = R.regionId
  mirror : ∀ R ∈ g.regions, ∀ p ∈ R.ports,
    ∃ R' ∈ g.regions, R'.regionId = otherRegionId p R.regionId ∧ p ∈ R'.ports
  idsNodup : (g.regions.map Region.regionId).Nodup

/-- One hop of a route at region level: some region object with this id
has a port whose other side is the next region. -/
def RegionStep (g : HyperGraph) (r r' : RegionId) : Prop :=
  ∃ R ∈ g.regions, R.regionId = r ∧ ∃ p ∈ R.ports, otherRegionId p r = r'

instance (g : HyperGraph) (r r' : RegionId) : Decidable (RegionStep g r r') := by
  unfold RegionStep
  infer_instance

/-! BFS bookkeeping lemmas. -/

theorem getEntry_none_iff {α : Type} (m : List (String × α)) (k : String) :
    getEntry m k = none ↔ k ∉ m.map Prod.fst := by
  induction m with
  | nil => simp [getEntry]
  | cons e rest ih =>
    obtain ⟨k', v⟩ := e
    by_cases h : k' = k
    · subst h
      simp [getEntry]
    · simp only [getEntry, h, if_false, List.map_cons, List.mem_cons]
      rw [ih]
      constructor
      · intro hn hmem
        rcases hmem with hk | hk
        · exact h hk.symm
        · exact hn hk
      · intro hn
        exact fun hk => hn (Or.inr hk)

theorem getEntry_append_left {α : Type} {m : List (String × α)} {k : String} {v : α}
    (n : List (String × α)) (h : getEntry m k = some v) :
    getEntry (m ++ n) k = some v := by
  induction m with
  | nil => simp [getEntry] at h
  | cons e rest ih =>
    simp only [getEntry, List.cons_append] at h ⊢
    by_cases he : e.1 = k
    · obtain ⟨k', v'⟩ := e
      simp only at he
      simp only [he, if_true] at h ⊢
      exact h
    · obtain ⟨k', v'⟩ := e
      simp only at he
      simp only [he, if_false] at h ⊢
      exact ih h

theorem getEntry_append_right {α : Type} {m : List (String × α)} {k : String}
    (n : List (String × α)) (h : getEntry m k = none) :
    getEntry (m ++ n) k = getEntry n k := by
  induction m with
  | nil => rfl
  | cons e rest ih =>
    obtain ⟨k', v'⟩ := e
    by_cases he : k' = k
    · simp [getEntry, he] at h
    · simp only [getEntry, he, if_false, List.cons_append] at h ⊢
      exact ih h

theorem getEntry_of_mem_nodup {α : Type} {m : List (String × α)} {e : String × α}
    (hnd : (m.map Prod.fst).Nodup) (hmem : e ∈ m) : getEntry m e.1 = some e.2 := by
  induction m with
  | nil => simp at hmem
  | cons x rest ih =>
    simp only [List.map_cons, List.nodup_cons] at hnd
    rcases List.mem_cons.1 hmem with rfl | hmem2
    · obtain ⟨k, v⟩ := e
      simp [getEntry]
    · have hx : x.1 ≠ e.1 := by
        intro he
        exact hnd.1 (he ▸ List.mem_map_of_mem _ hmem2)
      obtain ⟨k, v⟩ := x
      simp only at hx
      simp only [getEntry, hx, if_false]
      exact ih hnd.2 hmem2

theorem mem_of_getEntry {α : Type} {m : List (String × α)} {k : String} {v : α}
    (h : getEntry m k = some v) : (k, v) ∈ m := by
  induction m with
  | nil => simp [getEntry] at h
  | cons e rest ih =>
    obtain ⟨k', v'⟩ := e
    by_cases he : k' = k
    · subst he
      simp only [getEntry, if_true] at h
      obtain rfl := Option.some.inj h
      exact List.mem_cons_self _ _
    · simp only [getEntry, he, if_false] at h
      exact List.mem_cons_of_mem _ (ih h)

theorem getEntry_append_singleton {α : Type} {m : List (String × α)} {k : String}
    {v : α} {e : String × α} (h : getEntry (m ++ [e]) k = some v) :
    getEntry m k = some v ∨ (k = e.1 ∧ v = e.2) := by
  cases hm : getEntry m k with
  | some v' =>
    rw [getEntry_append_left _ hm] at h
    have hv : v' = v := Option.some.inj h
    subst hv
    exact Or.inl rfl
  | none =>
    rw [getEntry_append_right _ hm] at h
    obtain ⟨k', v'⟩ := e
    by_cases he : k' = k
    · subst he
      simp only [getEntry, if_true] at h
      obtain rfl := Option.some.inj h
      exact Or.inr ⟨rfl, rfl⟩
    · simp [getEntry, he] at h

theorem getEntry_none_of_append {α : Type} {m n : List (String × α)} {k : String}
    (h : getEntry (m ++ n) k = none) : getEntry m k = none := by
  rw [getEntry_none_iff] at h ⊢
  intro hk
  exact h (by rw [List.map_append]; exact List.mem_append_left _ hk)

theorem bfsVisitFold_spec (rid : RegionId) (dist : Nat) (ports : List RegionPort) :
    ∀ (m q : List (RegionId × Nat)), (m.map Prod.fst).Nodup →
      ∃ new : List (RegionId × Nat),
        bfsVisitFold rid dist ports (m, q) = (m ++ new, q ++ new) ∧
        (∀ e ∈ new, e.2 = dist + 1) ∧
        ((m ++ new).map Prod.fst).Nodup ∧
        (∀ e ∈ new, getEntry m e.1 = none) ∧
        (∀ e ∈ new, getEntry (m ++ new) e.1 = some e.2) ∧
        (∀ e ∈ new, e.1 ∈ ports.map (fun p => otherRegionId p rid)) ∧
        (∀ port ∈ ports, ∃ j, getEntry (m ++ new) (otherRegionId port rid) = some j ∧
          (getEntry m (otherRegionId port rid) = some j ∨ j = dist + 1)) := by
  induction ports with
  | nil =>
    intro m q hnd
    refine ⟨[], by simp [bfsVisitFold], by simp, by simpa using hnd, by simp, by simp,
      by simp, by simp⟩
  | cons p rest ih =>
    intro m q hnd
    have hstep : bfsVisitFold rid dist (p :: rest) (m, q) =
        match getEntry m (otherRegionId p rid) with
        | some _ => bfsVisitFold rid dist rest (m, q)
        | none => bfsVisitFold rid dist rest
            (m ++ [(otherRegionId p rid, dist + 1)], q ++ [(otherRegionId p rid, dist + 1)]) := by
      unfold bfsVisitFold
      simp only [List.foldl_cons]
      cases getEntry m (otherRegionId p rid) <;> rfl
    cases ho : getEntry m (otherRegionId p rid) with
    | some j0 =>
      rw [hstep, ho]
      obtain ⟨new, heq, hval, hnd2, hfresh, hlook, hkey, hports⟩ := ih m q hnd
      refine ⟨new, heq, hval, hnd2, hfresh, hlook, ?_, ?_⟩
      · intro e he
        have := hkey e he
        simp only [List.mem_map] at this ⊢
        obtain ⟨x, hx, hxe⟩ := this
        exact ⟨x, List.mem_cons_of_mem _ hx, hxe⟩
      · intro port hport
        rcases List.mem_cons.1 hport with rfl | hport2
        · exact ⟨j0, getEntry_append_left _ ho, Or.inl ho⟩
        · exact hports port hport2
    | none =>
      rw [hstep, ho]
      have hnd' : ((m ++ [(otherRegionId p rid, dist + 1)]).map Prod.fst).Nodup := by
        rw [List.map_append, List.nodup_append]
        refine ⟨hnd, by simp, ?_⟩
        intro x hx hx2
        simp only [List.map_cons, List.map_nil, List.mem_singleton] at hx2
        subst hx2
        exact ((getEntry_none_iff _ _).1 ho) hx
      obtain ⟨new', heq, hval, hnd2, hfresh, hlook, hkey, hports⟩ :=
        ih (m ++ [(otherRegionId p rid, dist + 1)]) (q ++ [(otherRegionId p rid, dist + 1)])
          hnd'
      have hassocm : m ++ [(otherRegionId p rid, dist + 1)] ++ new' =
          m ++ ((otherRegionId p rid, dist + 1) :: new') := by
        rw [List.append_assoc]
        rfl
      have hassocq : q ++ [(otherRegionId p rid, dist + 1)] ++ new' =
          q ++ ((otherRegionId p rid, dist + 1) :: new') := by
        rw [List.append_assoc]
        rfl
      have hheadlook : getEntry (m ++ ((otherRegionId p rid, dist + 1) :: new'))
          (otherRegionId p rid) = some (dist + 1) := by
        rw [getEntry_append_right _ ho]
        simp [getEntry]
      refine ⟨(otherRegionId p rid, dist + 1) :: new', ?_, ?_, ?_, ?_, ?_, ?_, ?_⟩
      · rw [heq, hassocm, hassocq]
      · intro e he
        rcases List.mem_cons.1 he with rfl | he2
        · rfl
        · exact hval e he2
      · rw [← hassocm]
        exact hnd2
      · intro e he
        rcases List.mem_cons.1 he with rfl | he2
        · exact ho
        · exact getEntry_none_of_append (hfresh e he2)
      · intro e he
        rcases List.mem_cons.1 he with rfl | he2
        · exact hheadlook
        · rw [← hassocm]
          exact hlook e he2
      · intro e he
        rcases List.mem_cons.1 he with rfl | he2
        · exact List.mem_map_of_mem _ (List.mem_cons_self _ _)
        · have := hkey e he2
          simp only [List.mem_map] at this ⊢
          obtain ⟨x, hx, hxe⟩ := this
          exact ⟨x, List.mem_cons_of_mem _ hx, hxe⟩
      · intro port hport
        rcases List.mem_cons.1 hport with rfl | hport2
        · exact ⟨dist + 1, hheadlook, Or.inr rfl⟩
        · obtain ⟨j, hj1, hj2⟩ := hports port hport2
          rw [hassocm] at hj1
          refine ⟨j, hj1, ?_⟩
          rcases hj2 with hj2 | hj2
          · rcases getEntry_append_singleton hj2 with h3 | h3
            · exact Or.inl h3
            · exact Or.inr h3.2
          · exact Or.inr hj2

theorem otherRegionId_mem_allRegionIds (g : HyperGraph) (endId rid : RegionId)
    (port : RegionPort) (hport : port ∈ regionPortsOf g rid) :
    otherRegionId port rid ∈ allRegionIds g endId := by
  unfold regionPortsOf at hport
  cases hfr : findRegion g rid with
  | none => rw [hfr] at hport; simp at hport
  | some R =>
    rw [hfr] at hport
    have hR : R ∈ g.regions := by
      unfold findRegion at hfr
      exact List.mem_of_find?_eq_some hfr
    unfold allRegionIds
    refine List.mem_cons_of_mem _ ?_
    rw [List.mem_flatMap]
    refine ⟨R, hR, ?_⟩
    rw [List.mem_flatMap]
    refine ⟨port, hport, ?_⟩
    unfold otherRegionId
    split <;> simp

theorem nodup_subset_length_le {l₁ l₂ : List String} (h1 : l₁.Nodup)
    (h2 : ∀ x ∈ l₁, x ∈ l₂) : l₁.length ≤ l₂.length := by
  classical
  calc l₁.length = l₁.toFinset.card := (List.toFinset_card_of_nodup h1).symm
  _ ≤ l₂.toFinset.card := by
      apply Finset.card_le_card
      intro x hx
      rw [List.mem_toFinset] at hx ⊢
      exact h2 x hx
  _ ≤ l₂.length := l₂.toFinset_card_le

/-- The BFS loop invariant: distances are recorded once, queue entries
mirror map entries in nondecreasing order differing by at most one from
any recorded distance, and every dequeued region has been fully
relaxed. -/
structure BfsInv (g : HyperGraph) (endId : RegionId)
    (m q : List (RegionId × Nat)) : Prop where
  mnodup : (m.map Prod.fst).Nodup
  qnodup : (q.map Prod.fst).Nodup
  end0 : getEntry m endId = some 0
  qsub : ∀ e ∈ q, getEntry m e.1 = some e.2
  bound : ∀ e ∈ q, ∀ x ∈ m, x.2 ≤ e.2 + 1
  sorted : q.Pairwise (fun a b => a.2 ≤ b.2)
  keysSub : ∀ k ∈ m.map Prod.fst, k ∈ allRegionIds g endId
  closure : ∀ e ∈ m, e.1 ∈ q.map Prod.fst ∨
    ∀ port ∈ regionPortsOf g e.1,
      ∃ j, getEntry m (otherRegionId port e.1) = some j ∧ j ≤ e.2 + 1

theorem bfsInv_final {g : HyperGraph} {endId : RegionId} {m : List (RegionId × Nat)}
    (inv : BfsInv g endId m []) :
    getEntry m endId = some 0 ∧ (m.map Prod.fst).Nodup ∧
      ∀ e ∈ m, ∀ port ∈ regionPortsOf g e.1,
        ∃ j, getEntry m (otherRegionId port e.1) = some j ∧ j ≤ e.2 + 1 := by
  refine ⟨inv.end0, inv.mnodup, ?_⟩
  intro e he
  rcases inv.closure e he with h | h
  · simp at h
  · exact h

theorem bfsLoop_spec (g : HyperGraph) (endId : RegionId) :
    ∀ (fuel : Nat) (m q : List (RegionId × Nat)),
      BfsInv g endId m q →
      q.length + 2 * (allRegionIds g endId).length ≤ fuel + 2 * m.length →
      getEntry (bfsLoop g fuel m q) endId = some 0 ∧
      ((bfsLoop g fuel m q).map Prod.fst).Nodup ∧
      ∀ e ∈ bfsLoop g fuel m q,
        ∀ port ∈ regionPortsOf g e.1,
          ∃ j, getEntry (bfsLoop g fuel m q) (otherRegionId port e.1) = some j ∧
            j ≤ e.2 + 1 := by
  intro fuel
  induction fuel with
  | zero =>
    intro m q inv hmeas
    have hmlen : m.length ≤ (allRegionIds g endId).length := by
      have := nodup_subset_length_le inv.mnodup inv.keysSub
      simpa using this
    have hq : q = [] := by
      cases hq : q with
      | nil => rfl
      | cons a l =>
        exfalso
        rw [hq] at hmeas
        simp only [List.length_cons, Nat.zero_add] at hmeas
        omega
    subst hq
    exact bfsInv_final inv
  | succ fuel ih =>
    intro m q inv hmeas
    cases q with
    | nil => exact bfsInv_final inv
    | cons head qrest =>
      obtain ⟨rid, dist⟩ := head
      obtain ⟨new, heq, hval, hnd2, hfresh, hlook, hkey, hports⟩ :=
        bfsVisitFold_spec rid dist (regionPortsOf g rid) m qrest inv.mnodup
      have hloop : bfsLoop g (fuel + 1) m ((rid, dist) :: qrest) =
          bfsLoop g fuel (m ++ new) (qrest ++ new) := by
        show bfsLoop g fuel (bfsVisitFold rid dist (regionPortsOf g rid) (m, qrest)).1
          (bfsVisitFold rid dist (regionPortsOf g rid) (m, qrest)).2 = _
        rw [heq]
      rw [hloop]
      have hsortedTail : qrest.Pairwise (fun a b => a.2 ≤ b.2) :=
        (List.pairwise_cons.1 inv.sorted).2
      have hheadLe : ∀ b ∈ qrest, dist ≤ b.2 := by
        intro b hb
        exact (List.pairwise_cons.1 inv.sorted).1 b hb
      have hheadBound : ∀ x ∈ m, x.2 ≤ dist + 1 := by
        intro x hx
        exact inv.bound (rid, dist) (List.mem_cons_self _ _) x hx
      have hfreshKeys : ∀ e ∈ new, e.1 ∉ m.map Prod.fst := by
        intro e he
        exact (getEntry_none_iff _ _).1 (hfresh e he)
      have hnewKeysNodup : (new.map Prod.fst).Nodup := by
        have := hnd2
        rw [List.map_append, List.nodup_append] at this
        exact this.2.1
      have inv' : BfsInv g endId (m ++ new) (qrest ++ new) := by
        refine ⟨hnd2, ?_, ?_, ?_, ?_, ?_, ?_, ?_⟩
        · rw [List.map_append, List.nodup_append]
          refine ⟨(List.nodup_cons.1 (by simpa using inv.qnodup)).2, hnewKeysNodup, ?_⟩
          intro k hk hk2
          simp only [List.mem_map] at hk hk2
          obtain ⟨e, he, rfl⟩ := hk
          obtain ⟨e', he', heq'⟩ := hk2
          have hm : getEntry m e.1 = some e.2 :=
            inv.qsub e (List.mem_cons_of_mem _ he)
          have hmem : e.1 ∈ m.map Prod.fst :=
            List.mem_map_of_mem _ (mem_of_getEntry hm)
          exact hfreshKeys e' he' (by rw [heq']; exact hmem)
        · exact getEntry_append_left _ inv.end0
        · intro e he
          rcases List.mem_append.1 he with he1 | he2
          · exact getEntry_append_left _ (inv.qsub e (List.mem_cons_of_mem _ he1))
          · exact hlook e he2
        · intro e he x hx
          rcases List.mem_append.1 he with he1 | he2 <;>
            rcases List.mem_append.1 hx with hx1 | hx2
          · exact inv.bound e (List.mem_cons_of_mem _ he1) x hx1
          · rw [hval x hx2]
            have := hheadLe e he1
            omega
          · have h1 := hheadBound x hx1
            rw [hval e he2]
            omega
          · rw [hval x hx2, hval e he2]
            omega
        · rw [List.pairwise_append]
          refine ⟨hsortedTail, ?_, ?_⟩
          · apply List.pairwise_of_forall_mem_list
            intro a ha b hb
            rw [hval a ha, hval b hb]
          · intro a ha b hb
            have hma : getEntry m a.1 = some a.2 :=
              inv.qsub a (List.mem_cons_of_mem _ ha)
            have := hheadBound (a.1, a.2) (mem_of_getEntry hma)
            rw [hval b hb]
            simpa using this
        · intro k hk
          rw [List.map_append] at hk
          rcases List.mem_append.1 hk with hk1 | hk2
          · exact inv.keysSub k hk1
          · simp only [List.mem_map] at hk2
            obtain ⟨e, he, rfl⟩ := hk2
            have := hkey e he
            simp only [List.mem_map] at this
            obtain ⟨port, hport, hpe⟩ := this
            rw [← hpe]
            exact otherRegionId_mem_allRegionIds g endId rid port hport
        · intro e he
          rcases List.mem_append.1 he with he1 | he2
          · rcases inv.closure e he1 with hcl | hcl
            · simp only [List.map_cons, List.mem_cons] at hcl
              rcases hcl with hcl | hcl
              · -- e.1 = rid: now fully relaxed
                right
                have hedist : e.2 = dist := by
                  have h1 := getEntry_of_mem_nodup inv.mnodup he1
                  rw [hcl] at h1
                  have h2 : getEntry m rid = some dist :=
                    inv.qsub (rid, dist) (List.mem_cons_self _ _)
                  exact Option.some.inj (h1.symm.trans h2)
                intro port hport
                rw [hcl] at hport ⊢
                rw [hedist]
                obtain ⟨j, hj1, hj2⟩ := hports port hport
                refine ⟨j, hj1, ?_⟩
                rcases hj2 with hj2 | hj2
                · have := hheadBound (otherRegionId port rid, j) (mem_of_getEntry hj2)
                  omega
                · omega
              · left
                rw [List.map_append]
                exact List.mem_append_left _ hcl
            · right
              intro port hport
              obtain ⟨j, hj1, hj2⟩ := hcl port hport
              exact ⟨j, getEntry_append_left _ hj1, hj2⟩
          · left
            rw [List.map_append]
            exact List.mem_append_right _ (List.mem_map_of_mem _ he2)
      have hmeas' : (qrest ++ new).length + 2 * (allRegionIds g endId).length ≤
          fuel + 2 * (m ++ new).length := by
        simp only [List.length_append, List.length_cons] at hmeas ⊢
        omega
      exact ih (m ++ new) (qrest ++ new) inv' hmeas'

theorem regionDistanceMap_spec (g : HyperGraph) (endId : RegionId) :
    getEntry (regionDistanceMap g endId) endId = some 0 ∧
    ((regionDistanceMap g endId).map Prod.fst).Nodup ∧
    ∀ e ∈ regionDistanceMap g endId,
      ∀ port ∈ regionPortsOf g e.1,
        ∃ j, getEntry (regionDistanceMap g endId) (otherRegionId port e.1) = some j ∧
          j ≤ e.2 + 1 := by
  have inv0 : BfsInv g endId [(endId, 0)] [(endId, 0)] := by
    refine ⟨by simp, by simp, by simp [getEntry], ?_, ?_, by simp, ?_, ?_⟩
    · intro e he
      simp only [List.mem_singleton] at he
      subst he
      simp [getEntry]
    · intro e he x hx
      simp only [List.mem_singleton] at he hx
      subst he
      subst hx
      omega
    · intro k hk
      simp only [List.map_cons, List.map_nil, List.mem_singleton] at hk
      subst hk
      exact List.mem_cons_self _ _
    · intro e he
      simp only [List.mem_singleton] at he
      subst he
      left
      simp
  have hmeas : (1 : Nat) + 2 * (allRegionIds g endId).length ≤
      bfsFuel g endId + 2 * 1 := by
    unfold bfsFuel
    omega
  have := bfsLoop_spec g endId (bfsFuel g endId) [(endId, 0)] [(endId, 0)] inv0
    (by simpa using hmeas)
  exact this

theorem find_region_aux :
    ∀ (l : List Region) (R : Region), (l.map Region.regionId).Nodup → R ∈ l →
      l.find? (fun r => r.regionId = R.regionId) = some R := by
  intro l
  induction l with
  | nil => intro R _ hR; simp at hR
  | cons x rest ih =>
    intro R hnd hR
    simp only [List.map_cons, List.nodup_cons] at hnd
    rcases List.mem_cons.1 hR with rfl | hR2
    · rw [List.find?_cons_of_pos _ (by simp)]
    · have hx : ¬ (x.regionId = R.regionId) := by
        intro he
        exact hnd.1 (he ▸ List.mem_map_of_mem _ hR2)
      rw [List.find?_cons_of_neg _ (by simpa using hx)]
      exact ih R hnd.2 hR2

theorem findRegion_of_mem_nodup {g : HyperGraph} {R : Region}
    (hnd : (g.regions.map Region.regionId).Nodup) (hR : R ∈ g.regions) :
    findRegion g R.regionId = some R := by
  unfold findRegion
  exact find_region_aux g.regions R hnd hR

theorem otherRegionId_symm {p : RegionPort} {r r' : RegionId}
    (hstraddle : p.region1 = r ∨ p.region2 = r)
    (h : otherRegionId p r = r') : otherRegionId p r' = r := by
  unfold otherRegionId at h ⊢
  by_cases h1 : p.region1 = r
  · rw [if_pos h1] at h
    by_cases h2 : p.region1 = r'
    · rw [if_pos h2]
      rw [h, ← h2]
      exact h1
    · rw [if_neg h2]
      rw [h1]
  · rw [if_neg h1] at h
    have h2 : p.region2 = r := by
      rcases hstraddle with hs | hs
      · exact absurd hs h1
      · exact hs
    by_cases h3 : p.region1 = r'
    · rw [if_pos h3]
      exact h2
    · exact absurd h h3

/-- Along any region-level path ending at the destination, the BFS map
records a value at the start bounded by the path length. -/
theorem regionDist_le_path (g : HyperGraph) (endId : RegionId) (hwf : GraphWF g) :
    ∀ (rs : List RegionId) (r0 : RegionId), List.Chain (RegionStep g) r0 rs →
      (r0 :: rs).getLast? = some endId →
      ∃ k, getEntry (regionDistanceMap g endId) r0 = some k ∧ k ≤ rs.length := by
  intro rs
  induction rs with
  | nil =>
    intro r0 _ hlast
    simp only [List.getLast?_singleton, Option.some.injEq] at hlast
    subst hlast
    exact ⟨0, (regionDistanceMap_spec g r0).1, Nat.le_refl 0⟩
  | cons r1 rs' ih =>
    intro r0 hchain hlast
    rw [List.chain_cons] at hchain
    obtain ⟨hstep, hchain'⟩ := hchain
    have hlast' : (r1 :: rs').getLast? = some endId := by
      simpa [List.getLast?_cons_cons] using hlast
    obtain ⟨k1, hk1, hk1le⟩ := ih r1 hchain' hlast'
    obtain ⟨R, hR, hRid, p0, hp0, hother⟩ := hstep
    obtain ⟨R', hR', hR'id, hp0'⟩ := hwf.mirror R hR p0 hp0
    have hR'r1 : R'.regionId = r1 := by
      rw [hR'id, hRid]
      exact hother
    have hports1 : p0 ∈ regionPortsOf g r1 := by
      unfold regionPortsOf
      rw [← hR'r1, findRegion_of_mem_nodup hwf.idsNodup hR']
      exact hp0'
    have hsym : otherRegionId p0 r1 = r0 := by
      apply otherRegionId_symm ?_ hother
      have := hwf.straddle R hR p0 hp0
      rw [hRid] at this
      exact this
    obtain ⟨_, _, hclosure⟩ := regionDistanceMap_spec g endId
    have hmem1 : (r1, k1) ∈ regionDistanceMap g endId := mem_of_getEntry hk1
    obtain ⟨j, hj1, hj2⟩ := hclosure (r1, k1) hmem1 p0 hports1
    rw [hsym] at hj1
    refine ⟨j, hj1, ?_⟩
    simp only [List.length_cons]
    omega

/-- C5: the heuristic stored for a port at a destination end region of
the connection set equals the minimum of the BFS hop distances of the
port's two adjacent regions (populateDistanceToEndMaps lines 104-111),
and it bounds from below the hop count of any region-level route from
the port to that end region (admissibility). -/
theorem c5_heuristic_admissible (g : HyperGraph) (conns : List Connection)
    (endId : RegionId) (hend : endId ∈ conns.map (fun c => c.endRegion.regionId))
    (hwf : GraphWF g) (p : RegionPort) :
    distanceToEndMapEntry g endId p =
      minD (getEntry (regionDistanceMap g endId) p.region1)
        (getEntry (regionDistanceMap g endId) p.region2) ∧
    ∀ r0 : RegionId, r0 = p.region1 ∨ r0 = p.region2 →
      ∀ rs : List RegionId, List.Chain (RegionStep g) r0 rs →
        (r0 :: rs).getLast? = some endId →
        ∃ k, distanceToEndMapEntry g endId p = some k ∧ k ≤ rs.length := by
  refine ⟨rfl, ?_⟩
  intro r0 hr0 rs hchain hlast
  obtain ⟨k, hk, hkle⟩ := regionDist_le_path g endId hwf rs r0 hchain hlast
  unfold distanceToEndMapEntry
  rcases hr0 with rfl | rfl
  · rw [hk]
    cases h2 : getEntry (regionDistanceMap g endId) p.region2 with
    | none => exact ⟨k, rfl, hkle⟩
    | some b =>
      refine ⟨min k b, rfl, ?_⟩
      exact le_trans (Nat.min_le_left _ _) hkle
  · rw [hk]
    cases h1 : getEntry (regionDistanceMap g endId) p.region1 with
    | none => exact ⟨k, rfl, hkle⟩
    | some a =>
      refine ⟨min a k, rfl, ?_⟩
      exact le_trans (Nat.min_le_right _ _) hkle

/-- Witness for C5 on the chain graph with destination C. -/
theorem c5_witness :
    (distanceToEndMapEntry threeRegionGraph ("C") portAB =
      minD (getEntry (regionDistanceMap threeRegionGraph ("C")) portAB.region1)
        (getEntry (regionDistanceMap threeRegionGraph ("C")) portAB.region2)) ∧
    ∃ k, distanceToEndMapEntry threeRegionGraph ("C") portAB = some k ∧ k ≤ 1 := by
  have h := c5_heuristic_admissible threeRegionGraph [connAC] ("C") (by decide)
    ⟨by decide, by decide, by decide⟩ portAB
  refine ⟨h.1, ?_⟩
  have h2 := h.2 ("B") (by decide) ["C"] ?_ (by decide)
  · simpa using h2
  · refine List.Chain.cons ?_ List.Chain.nil
    refine ⟨regionB2, by decide, by decide, portBC, by decide, by decide⟩

/-! ### C8: the jumper solver's iteration budget
JumperGraphSolver constructor (lines 63-75) composes MAX_ITERATIONS
from baseMaxIterations, the connection count and the counted
input-connection crossings (src/unnamed/part_010). The perimeter
utilities it uses (perimeterT, chordsCross) are not under src/ and are
modelled from spec 4.3 and 8.10; the BaseSolver budget check is
modelled from spec 4.6/5. -/

structure Bounds where
  minX : ℚ
  maxX : ℚ
  minY : ℚ
  maxY : ℚ
deriving DecidableEq, Repr

structure Point where
  x : ℚ
  y : ℚ
deriving DecidableEq, Repr

/-- The geometry payload of a jumper region as read by the crossing
counter (d.bounds / d.center, either possibly absent). -/
structure JRegionGeom where
  regionId : RegionId
  bounds : Option Bounds
  center : Option Point
deriving DecidableEq, Repr

/-- The serialized-connection view used by the crossing counter. -/
structure JSerializedConnection where
  connectionId : ConnectionId
  startRegionId : RegionId
  endRegionId : RegionId
deriving DecidableEq, Repr

/-- Modelled from the spec: perimeterT is not under src/. Spec 4.3:
map a point on the perimeter of axis-aligned bounds to a scalar t by
tracing top, right, bottom, left. -/
def perimeterT (pt : Point) (b : Bounds) : ℚ :=
  let w := b.maxX - b.minX
  let h := b.maxY - b.minY
  if pt.y = b.maxY then pt.x - b.minX
  else if pt.x = b.maxX then w + (b.maxY - pt.y)
  else if pt.y = b.minY then w + h + (b.maxX - pt.x)
  else 2 * w + h + (pt.y - b.minY)

/-- Whether t lies strictly inside the circular arc from a to b. -/
def inOpenArc (a b t : ℚ) : Bool :=
  if a < b then a < t && t < b else t > a || t < b

/-- Modelled from the spec: chordsCross is not under src/. Spec 8.10:
two chords cross iff exactly one endpoint of the second lies in the
open arc spanned by the first. -/
def chordsCross (c1 c2 : ℚ × ℚ) : Bool :=
  xor (inOpenArc c1.1 c1.2 c2.1) (inOpenArc c1.1 c1.2 c2.2)

/-- The i<j double loop counting crossing chord pairs. -/
def countCrossPairs : List (ℚ × ℚ) → Nat
  | [] => 0
  | c :: rest => rest.countP (fun c2 => chordsCross c c2) + countCrossPairs rest

/-- The overall-bounds fold of countInputConnectionCrossings
(src/unnamed/part_010): extend by each region's bounds, falling back to
its center; none embeds the all-Infinity initial accumulator. -/
def extendBounds (acc : Option Bounds) (r : JRegionGeom) : Option Bounds :=
  match r.bounds with
  | some b =>
    match acc with
    | none => some b
    | some a => some ⟨min a.minX b.minX, max a.maxX b.maxX,
        min a.minY b.minY, max a.maxY b.maxY⟩
  | none =>
    match r.center with
    | some c =>
      match acc with
      | none => some ⟨c.x, c.x, c.y, c.y⟩
      | some a => some ⟨min a.minX c.x, max a.maxX c.x,
          min a.minY c.y, max a.maxY c.y⟩
    | none => acc

/-- countInputConnectionCrossings (src/unnamed/part_010): project each
connection's start/end region centers onto the overall perimeter and
count interleaving chord pairs; connections with a missing center are
skipped, and fewer than two connections give zero. -/
def countInputConnectionCrossings (regions : List JRegionGeom)
    (conns : List JSerializedConnection) : Nat :=
  if conns.length < 2 then 0
  else
    let gb := (regions.foldl extendBounds none).getD ⟨0, 0, 0, 0⟩
    let centerOf : RegionId → Option Point := fun rid =>
      ((regions.filter (fun r => r.center.isSome)).find?
        (fun r => r.regionId = rid)).bind (fun r => r.center)
    let chords := conns.filterMap (fun conn =>
      match centerOf conn.startRegionId, centerOf conn.endRegionId with
      | some sc, some ec => some (perimeterT sc gb, perimeterT ec gb)
      | _, _ => none)
    countCrossPairs chords

/-- The constructed jumper solver budget fields (constructor lines
37-39 defaults and 63-72 composition). -/
structure JumperConstructed where
  baseMaxIterations : Nat
  additionalMaxIterationsPerConnection : Nat
  additionalMaxIterationsPerCrossing : Nat
  maxIterations : Nat
deriving DecidableEq, Repr

/-- JumperGraphSolver constructor (lines 41-75), restricted to the
budget computation: defaults 4000 / 2000 / 2000, input overrides for
the first two, and MAX_ITERATIONS composed with the counted input
crossings. -/
def mkJumperSolver (regions : List JRegionGeom) (conns : List JSerializedConnection)
    (inputBase : Option Nat) (inputAddPerConn : Option Nat) : JumperConstructed :=
  let base := inputBase.getD 4000
  let addConn := inputAddPerConn.getD 2000
  let addCross := 2000
  let crossings := countInputConnectionCrossings regions conns
  { baseMaxIterations := base
    additionalMaxIterationsPerConnection := addConn
    additionalMaxIterationsPerCrossing := addCross
    maxIterations := base + conns.length * addConn + crossings * addCross }

/-- Modelled from the spec: BaseSolver.solve with the step budget is
not under src/. Spec 4.6/5: repeat step until terminal; when the
iteration count exceeds the composed budget, declare failure with
BudgetExhausted. -/
def solveWithBudget (hooks : SolverHooks) (maxIterations : Nat) :
    Nat → SolverState → SolverState
  | 0, st => st
  | fuel + 1, st =>
    if st.solved ∨ st.failed then st
    else if st.iterations > maxIterations then
      { st with failed := true, error := some SolverError.budgetExhausted }
    else solveWithBudget hooks maxIterations fuel
      { stepSolver hooks st with iterations := st.iterations + 1 }

/-- C8: the jumper solver's absolute step budget equals
baseMaxIterations + #connections * additionalMaxIterationsPerConnection
+ countedCrossings * additionalMaxIterationsPerCrossing, and once the
iteration count exceeds that budget the (spec-modelled) solve loop
terminates failed with a BudgetExhausted error. -/
theorem c8_budget (regions : List JRegionGeom) (conns : List JSerializedConnection)
    (inputBase : Option Nat) (inputAddPerConn : Option Nat) :
    (mkJumperSolver regions conns inputBase inputAddPerConn).maxIterations =
      (mkJumperSolver regions conns inputBase inputAddPerConn).baseMaxIterations +
        conns.length *
          (mkJumperSolver regions conns inputBase
            inputAddPerConn).additionalMaxIterationsPerConnection +
        countInputConnectionCrossings regions conns *
          (mkJumperSolver regions conns inputBase
            inputAddPerConn).additionalMaxIterationsPerCrossing ∧
    ∀ (hooks : SolverHooks) (fuel : Nat) (st : SolverState),
      st.solved = false → st.failed = false →
      st.iterations > (mkJumperSolver regions conns inputBase inputAddPerConn).maxIterations →
      solveWithBudget hooks
          (mkJumperSolver regions conns inputBase inputAddPerConn).maxIterations
          (fuel + 1) st =
        { st with failed := true, error := some SolverError.budgetExhausted } := by
  refine ⟨rfl, ?_⟩
  intro hooks fuel st h1 h2 h3
  unfold solveWithBudget
  rw [h1, h2]
  simp only [Bool.false_eq_true, or_self, if_false]
  rw [if_pos h3]

/-! ### C6: machinery -/

theorem dequeueMin_subset :
    ∀ {q : List Candidate} {c : Candidate} {q' : List Candidate},
      dequeueMin q = some (c, q') → ∀ x ∈ q', x ∈ q := by
  intro q
  induction q with
  | nil => intro c q' h; simp [dequeueMin] at h
  | cons a rest ih =>
    intro c q' h
    rw [dequeueMin_cons] at h
    cases hr : dequeueMin rest with
    | none =>
      rw [hr] at h
      simp only [Option.some.injEq, Prod.mk.injEq] at h
      rw [← h.2]
      intro x hx
      simp at hx
    | some p =>
      obtain ⟨m, rest'⟩ := p
      rw [hr] at h
      by_cases hf : a.f ≤ m.f
      · simp only [hf, if_true, Option.some.injEq, Prod.mk.injEq] at h
        rw [← h.2]
        intro x hx
        exact List.mem_cons_of_mem _ hx
      · simp only [hf, if_false, Option.some.injEq, Prod.mk.injEq] at h
        rw [← h.2]
        intro x hx
        rcases List.mem_cons.1 hx with rfl | hx2
        · exact List.mem_cons_self _ _
        · exact List.mem_cons_of_mem _ (ih hr x hx2)

theorem findProcessableFuel_subset :
    ∀ (fuel : Nat) (visited : List (PortId × Cost)) (q : List Candidate)
      (c : Candidate) (q' : List Candidate),
      findProcessableFuel visited fuel q = some (c, q') →
      c ∈ q ∧ ∀ x ∈ q', x ∈ q := by
  intro fuel
  induction fuel with
  | zero => intro visited q c q' h; simp [findProcessableFuel] at h
  | succ n ih =>
    intro visited q c q' h
    simp only [findProcessableFuel] at h
    cases hq : dequeueMin q with
    | none => rw [hq] at h; simp at h
    | some p =>
      obtain ⟨c0, q0⟩ := p
      rw [hq] at h
      dsimp only at h
      cases hv : getEntry visited c0.port.portId with
      | none =>
        rw [hv] at h
        simp only [Option.some.injEq, Prod.mk.injEq] at h
        rw [← h.1, ← h.2]
        exact ⟨dequeueMin_mem hq, dequeueMin_subset hq⟩
      | some v =>
        rw [hv] at h
        by_cases hlt : c0.g < v
        · simp only [hlt, if_true, Option.some.injEq, Prod.mk.injEq] at h
          rw [← h.1, ← h.2]
          exact ⟨dequeueMin_mem hq, dequeueMin_subset hq⟩
        · simp only [hlt, if_false] at h
          obtain ⟨h1, h2⟩ := ih visited q0 c q' h
          exact ⟨dequeueMin_subset hq c h1, fun x hx => dequeueMin_subset hq x (h2 x hx)⟩

theorem findProcessable_subset {visited : List (PortId × Cost)} {q : List Candidate}
    {c : Candidate} {q' : List Candidate}
    (h : findProcessable visited q = some (c, q')) : c ∈ q ∧ ∀ x ∈ q', x ∈ q :=
  findProcessableFuel_subset q.length visited q c q' h

theorem dedupByRouteIdFuel_subset :
    ∀ (fuel : Nat) (l : List SolvedRoute), ∀ r ∈ dedupByRouteIdFuel fuel l, r ∈ l := by
  intro fuel
  induction fuel with
  | zero => intro l r hr; simp [dedupByRouteIdFuel] at hr
  | succ n ih =>
    intro l r hr
    cases l with
    | nil => simp [dedupByRouteIdFuel] at hr
    | cons a rest =>
      simp only [dedupByRouteIdFuel] at hr
      rcases List.mem_cons.1 hr with rfl | hr2
      · exact List.mem_cons_self _ _
      · exact List.mem_cons_of_mem _
          (List.mem_of_mem_filter (ih _ r hr2))

theorem dedupByRouteIdFuel_pairwise :
    ∀ (fuel : Nat) (l : List SolvedRoute),
      (dedupByRouteIdFuel fuel l).Pairwise (fun a b => a.routeId ≠ b.routeId) := by
  intro fuel
  induction fuel with
  | zero => intro l; simp [dedupByRouteIdFuel]
  | succ n ih =>
    intro l
    cases l with
    | nil => simp [dedupByRouteIdFuel]
    | cons a rest =>
      simp only [dedupByRouteIdFuel]
      rw [List.pairwise_cons]
      refine ⟨?_, ih _⟩
      intro b hb
      have := dedupByRouteIdFuel_subset n _ b hb
      have := List.of_mem_filter this
      intro he
      rw [he] at this
      simp at this

theorem perm_filter_routeId :
    ∀ (l : List SolvedRoute) (r : SolvedRoute), (l.map SolvedRoute.routeId).Nodup →
      r ∈ l → List.Perm l (r :: l.filter (fun x => x.routeId ≠ r.routeId)) := by
  intro l
  induction l with
  | nil => intro r _ hr; simp at hr
  | cons a rest ih =>
    intro r hnd hr
    simp only [List.map_cons, List.nodup_cons] at hnd
    rcases List.mem_cons.1 hr with rfl | hr2
    · have hself : (decide (r.routeId ≠ r.routeId)) = false := by simp
      rw [List.filter_cons, hself]
      have hfilter : rest.filter (fun x => decide (x.routeId ≠ r.routeId)) = rest := by
        apply List.filter_eq_self.2
        intro x hx
        simp only [decide_eq_true_eq]
        intro he
        exact hnd.1 (by rw [← he]; exact List.mem_map_of_mem _ hx)
      simp only [hfilter]
      exact List.Perm.refl _
    · have hne : (decide (a.routeId ≠ r.routeId)) = true := by
        simp only [decide_eq_true_eq]
        intro he
        exact hnd.1 (by rw [he]; exact List.mem_map_of_mem _ hr2)
      rw [List.filter_cons, hne]
      simp only [if_true]
      exact ((ih r hnd.2 hr2).cons a).trans (List.Perm.swap _ _ _)

theorem findRegion_mem {g : HyperGraph} {rid : RegionId} {r : Region}
    (h : findRegion g rid = some r) : r ∈ g.regions :=
  List.mem_of_find?_eq_some h

theorem routeId_inj {l : List SolvedRoute}
    (hnd : (l.map SolvedRoute.routeId).Nodup) {a b : SolvedRoute}
    (ha : a ∈ l) (hb : b ∈ l) (he : a.routeId = b.routeId) : a = b :=
  List.inj_on_of_nodup_map hnd ha hb he

theorem filter_routeId_nodup {l : List SolvedRoute} (p : SolvedRoute → Bool)
    (hnd : (l.map SolvedRoute.routeId).Nodup) :
    ((l.filter p).map SolvedRoute.routeId).Nodup :=
  List.Nodup.sublist (List.Sublist.map _ (List.filter_sublist _)) hnd

theorem ripFold_misc (l : List RegionPort) (s : SolverState) :
    (l.foldl ripPortUpdate s).graph = s.graph ∧
    (l.foldl ripPortUpdate s).connections = s.connections ∧
    (l.foldl ripPortUpdate s).currentConnection = s.currentConnection ∧
    (l.foldl ripPortUpdate s).solved = s.solved ∧
    (l.foldl ripPortUpdate s).failed = s.failed ∧
    (l.foldl ripPortUpdate s).nextRouteId = s.nextRouteId ∧
    (l.foldl ripPortUpdate s).candidateQueue = s.candidateQueue := by
  induction l generalizing s with
  | nil => exact ⟨rfl, rfl, rfl, rfl, rfl, rfl, rfl⟩
  | cons q rest ih =>
    simp only [List.foldl_cons]
    exact ih (ripPortUpdate s q)

theorem ripFold_portAssignment_not_mem (l : List RegionPort) (s : SolverState)
    (pid : PortId) (h : ∀ p ∈ l, p.portId ≠ pid) :
    (l.foldl ripPortUpdate s).portAssignment pid = s.portAssignment pid := by
  induction l generalizing s with
  | nil => rfl
  | cons q rest ih =>
    simp only [List.foldl_cons]
    rw [ih _ (fun x hx => h x (List.mem_cons_of_mem _ hx))]
    unfold SolverState.portAssignment
    rw [ripPortUpdate_portAssignments,
      getEntry_set_ne _ _ _ _ (h q (List.mem_cons_self _ _))]

theorem ripFold_region_mono (l : List RegionPort) (s : SolverState) (rid : RegionId) :
    ∀ a ∈ (l.foldl ripPortUpdate s).regionAssignList rid, a ∈ s.regionAssignList rid := by
  induction l generalizing s with
  | nil => exact fun a ha => ha
  | cons q rest ih =>
    intro a ha
    simp only [List.foldl_cons] at ha
    exact ripPortUpdate_region_mono s q rid a (ih _ a ha)

/-- Reference invariant of port assignments: a live assignment points at
a route currently in solvedRoutes whose path contains the port. -/
def PortAssignOk (st : SolverState) : Prop :=
  ∀ pid a, st.portAssignment pid = some a →
    a.solvedRoute ∈ st.solvedRoutes ∧ ∃ c ∈ a.solvedRoute.path, c.port.portId = pid

/-- Reference invariant of region records: each record points at a route
currently in solvedRoutes, its second port lies on that route's path,
and the region key is adjacent to that port. -/
def RegionAssignOk (st : SolverState) : Prop :=
  ∀ rid, ∀ ra ∈ st.regionAssignList rid,
    ra.solvedRoute ∈ st.solvedRoutes ∧
    ∃ c ∈ ra.solvedRoute.path, c.port.portId = ra.regionPort2.portId ∧
      (rid = c.port.region1 ∨ rid = c.port.region2)

/-- One rip under the reference invariants: the route leaves
solvedRoutes exactly once (as a permutation), its connection is queued,
and the invariants survive. -/
theorem ripRoute_conserve (st : SolverState) (r : SolvedRoute)
    (hnd : (st.solvedRoutes.map SolvedRoute.routeId).Nodup)
    (hr : r ∈ st.solvedRoutes)
    (hpa : PortAssignOk st) (hra : RegionAssignOk st) :
    List.Perm st.solvedRoutes (r :: (ripSolvedRoute st r).solvedRoutes) ∧
    (ripSolvedRoute st r).unprocessedConnections =
      st.unprocessedConnections ++ [r.connection] ∧
    ((ripSolvedRoute st r).solvedRoutes.map SolvedRoute.routeId).Nodup ∧
    PortAssignOk (ripSolvedRoute st r) ∧
    RegionAssignOk (ripSolvedRoute st r) := by
  have hsr : (ripSolvedRoute st r).solvedRoutes =
      st.solvedRoutes.filter (fun x => x.routeId ≠ r.routeId) := by
    show ((r.path.map Candidate.port).foldl ripPortUpdate st).solvedRoutes.filter
        (fun x => x.routeId ≠ r.routeId) = _
    rw [ripFold_solvedRoutes]
  have hup : (ripSolvedRoute st r).unprocessedConnections =
      st.unprocessedConnections ++ [r.connection] := by
    show ((r.path.map Candidate.port).foldl ripPortUpdate st).unprocessedConnections
        ++ [r.connection] = _
    rw [ripFold_unprocessed]
  refine ⟨?_, hup, ?_, ?_, ?_⟩
  · rw [hsr]; exact perm_filter_routeId _ _ hnd hr
  · rw [hsr]; exact filter_routeId_nodup _ hnd
  · intro pid a hlook
    have hlook' : ((r.path.map Candidate.port).foldl ripPortUpdate st).portAssignment
        pid = some a := hlook
    have hnotin : ∀ p ∈ r.path.map Candidate.port, p.portId ≠ pid := by
      intro p hp hpe
      have hnone := ripFold_portAssignment_none (r.path.map Candidate.port) st p hp
      rw [hpe, hlook'] at hnone
      exact Option.noConfusion hnone
    have hold : st.portAssignment pid = some a := by
      rw [← ripFold_portAssignment_not_mem (r.path.map Candidate.port) st pid hnotin]
      exact hlook'
    obtain ⟨hmem, c, hcmem, hcpid⟩ := hpa pid a hold
    have hner : a.solvedRoute ≠ r := by
      intro he
      rw [he] at hcmem
      exact hnotin c.port (List.mem_map_of_mem _ hcmem) hcpid
    refine ⟨?_, c, hcmem, hcpid⟩
    rw [hsr]
    refine List.mem_filter.2 ⟨hmem, ?_⟩
    simp only [decide_eq_true_eq]
    intro hid
    exact hner (routeId_inj hnd hmem hr hid)
  · intro rid ra hmem'
    have hmem'' : ra ∈ ((r.path.map Candidate.port).foldl ripPortUpdate st).regionAssignList
        rid := hmem'
    have hold := ripFold_region_mono (r.path.map Candidate.port) st rid ra hmem''
    obtain ⟨hrmem, c, hcmem, hcpid, hcrid⟩ := hra rid ra hold
    have hner : ra.solvedRoute ≠ r := by
      intro he
      rw [he] at hcmem
      have hpl : c.port ∈ r.path.map Candidate.port := List.mem_map_of_mem _ hcmem
      have hcl := ripFold_region_cleared (r.path.map Candidate.port) st c.port hpl
        rid hcrid ra hmem''
      exact hcl.2 hcpid.symm
    refine ⟨?_, c, hcmem, hcpid, hcrid⟩
    rw [hsr]
    refine List.mem_filter.2 ⟨hrmem, ?_⟩
    simp only [decide_eq_true_eq]
    intro hid
    exact hner (routeId_inj hnd hrmem hr hid)

theorem ripSolvedRoute_misc (st : SolverState) (r : SolvedRoute) :
    (ripSolvedRoute st r).graph = st.graph ∧
    (ripSolvedRoute st r).connections = st.connections ∧
    (ripSolvedRoute st r).currentConnection = st.currentConnection ∧
    (ripSolvedRoute st r).solved = st.solved ∧
    (ripSolvedRoute st r).failed = st.failed ∧
    (ripSolvedRoute st r).nextRouteId = st.nextRouteId ∧
    (ripSolvedRoute st r).candidateQueue = st.candidateQueue :=
  ripFold_misc (r.path.map Candidate.port) st

theorem ripRoutesFold_misc (rs : List SolvedRoute) (st : SolverState) :
    (rs.foldl ripSolvedRoute st).graph = st.graph ∧
    (rs.foldl ripSolvedRoute st).connections = st.connections ∧
    (rs.foldl ripSolvedRoute st).currentConnection = st.currentConnection ∧
    (rs.foldl ripSolvedRoute st).solved = st.solved ∧
    (rs.foldl ripSolvedRoute st).failed = st.failed ∧
    (rs.foldl ripSolvedRoute st).nextRouteId = st.nextRouteId ∧
    (rs.foldl ripSolvedRoute st).candidateQueue = st.candidateQueue := by
  induction rs generalizing st with
  | nil => exact ⟨rfl, rfl, rfl, rfl, rfl, rfl, rfl⟩
  | cons r rest ih =>
    simp only [List.foldl_cons]
    obtain ⟨h1, h2, h3, h4, h5, h6, h7⟩ := ih (ripSolvedRoute st r)
    obtain ⟨g1, g2, g3, g4, g5, g6, g7⟩ := ripSolvedRoute_misc st r
    exact ⟨h1.trans g1, h2.trans g2, h3.trans g3, h4.trans g4,
      h5.trans g5, h6.trans g6, h7.trans g7⟩

/-- Rips of a routeId-distinct batch of installed routes: the batch
leaves solvedRoutes as a permutation split and every ripped connection
is appended, in order, to the unprocessed queue. -/
theorem ripRoutesFold_conserve (rs : List SolvedRoute) (st : SolverState)
    (hpair : rs.Pairwise (fun a b => a.routeId ≠ b.routeId))
    (hmem : ∀ r ∈ rs, r ∈ st.solvedRoutes)
    (hnd : (st.solvedRoutes.map SolvedRoute.routeId).Nodup)
    (hpa : PortAssignOk st) (hra : RegionAssignOk st) :
    List.Perm st.solvedRoutes (rs ++ (rs.foldl ripSolvedRoute st).solvedRoutes) ∧
    (rs.foldl ripSolvedRoute st).unprocessedConnections =
      st.unprocessedConnections ++ rs.map SolvedRoute.connection ∧
    ((rs.foldl ripSolvedRoute st).solvedRoutes.map SolvedRoute.routeId).Nodup ∧
    PortAssignOk (rs.foldl ripSolvedRoute st) ∧
    RegionAssignOk (rs.foldl ripSolvedRoute st) := by
  induction rs generalizing st with
  | nil => exact ⟨List.Perm.refl _, by simp, hnd, hpa, hra⟩
  | cons r rest ih =>
    rw [List.pairwise_cons] at hpair
    obtain ⟨hhead, hpair'⟩ := hpair
    have hr := hmem r (List.mem_cons_self _ _)
    obtain ⟨hperm1, hup1, hnd1, hpa1, hra1⟩ := ripRoute_conserve st r hnd hr hpa hra
    have hmem' : ∀ x ∈ rest, x ∈ (ripSolvedRoute st r).solvedRoutes := by
      intro x hx
      have hxs := hmem x (List.mem_cons_of_mem _ hx)
      have hx2 := hperm1.mem_iff.1 hxs
      rcases List.mem_cons.1 hx2 with rfl | hok
      · exact absurd rfl (hhead x hx)
      · exact hok
    obtain ⟨hperm2, hup2, hnd2, hpa2, hra2⟩ :=
      ih (ripSolvedRoute st r) hpair' hmem' hnd1 hpa1 hra1
    simp only [List.foldl_cons]
    refine ⟨?_, ?_, hnd2, hpa2, hra2⟩
    · exact hperm1.trans (hperm2.cons r)
    · rw [hup2, hup1, List.append_assoc]
      rfl

theorem installStep_portAssignments (nr : SolvedRoute) (conn : Connection)
    (s : SolverState) (c : Candidate) :
    (installStep nr conn s c).portAssignments =
      setEntry s.portAssignments c.port.portId
        (some { solvedRoute := nr, connection := conn }) := by
  unfold installStep
  cases c.lastPort <;> rfl

theorem installStep_misc (nr : SolvedRoute) (conn : Connection)
    (s : SolverState) (c : Candidate) :
    (installStep nr conn s c).solvedRoutes = s.solvedRoutes ∧
    (installStep nr conn s c).unprocessedConnections = s.unprocessedConnections ∧
    (installStep nr conn s c).graph = s.graph ∧
    (installStep nr conn s c).connections = s.connections ∧
    (installStep nr conn s c).currentConnection = s.currentConnection ∧
    (installStep nr conn s c).solved = s.solved ∧
    (installStep nr conn s c).failed = s.failed ∧
    (installStep nr conn s c).nextRouteId = s.nextRouteId ∧
    (installStep nr conn s c).candidateQueue = s.candidateQueue := by
  unfold installStep
  cases c.lastPort <;> exact ⟨rfl, rfl, rfl, rfl, rfl, rfl, rfl, rfl, rfl⟩

theorem installFold_misc (nr : SolvedRoute) (conn : Connection) (l : List Candidate)
    (s : SolverState) :
    (l.foldl (installStep nr conn) s).solvedRoutes = s.solvedRoutes ∧
    (l.foldl (installStep nr conn) s).unprocessedConnections =
      s.unprocessedConnections ∧
    (l.foldl (installStep nr conn) s).graph = s.graph ∧
    (l.foldl (installStep nr conn) s).connections = s.connections ∧
    (l.foldl (installStep nr conn) s).currentConnection = s.currentConnection ∧
    (l.foldl (installStep nr conn) s).solved = s.solved ∧
    (l.foldl (installStep nr conn) s).failed = s.failed ∧
    (l.foldl (installStep nr conn) s).nextRouteId = s.nextRouteId ∧
    (l.foldl (installStep nr conn) s).candidateQueue = s.candidateQueue := by
  induction l generalizing s with
  | nil => exact ⟨rfl, rfl, rfl, rfl, rfl, rfl, rfl, rfl, rfl⟩
  | cons c rest ih =>
    simp only [List.foldl_cons]
    obtain ⟨h1, h2, h3, h4, h5, h6, h7, h8, h9⟩ := ih (installStep nr conn s c)
    obtain ⟨g1, g2, g3, g4, g5, g6, g7, g8, g9⟩ := installStep_misc nr conn s c
    exact ⟨h1.trans g1, h2.trans g2, h3.trans g3, h4.trans g4, h5.trans g5,
      h6.trans g6, h7.trans g7, h8.trans g8, h9.trans g9⟩

theorem installFold_portAssignment_not_mem (nr : SolvedRoute) (conn : Connection)
    (l : List Candidate) (s : SolverState) (pid : PortId)
    (h : ∀ c ∈ l, c.port.portId ≠ pid) :
    (l.foldl (installStep nr conn) s).portAssignment pid = s.portAssignment pid := by
  induction l generalizing s with
  | nil => rfl
  | cons c rest ih =>
    simp only [List.foldl_cons]
    rw [ih _ (fun x hx => h x (List.mem_cons_of_mem _ hx))]
    unfold SolverState.portAssignment
    rw [installStep_portAssignments,
      getEntry_set_ne _ _ _ _ (h c (List.mem_cons_self _ _))]

theorem installFold_portAssignment_mem (nr : SolvedRoute) (conn : Connection)
    (l : List Candidate) (s : SolverState) (pid : PortId)
    (h : ∃ c ∈ l, c.port.portId = pid) :
    (l.foldl (installStep nr conn) s).portAssignment pid =
      some { solvedRoute := nr, connection := conn } := by
  induction l generalizing s with
  | nil => obtain ⟨c, hc, _⟩ := h; simp at hc
  | cons c rest ih =>
    simp only [List.foldl_cons]
    by_cases hrest : ∃ c' ∈ rest, c'.port.portId = pid
    · exact ih _ hrest
    · push_neg at hrest
      have hc : c.port.portId = pid := by
        obtain ⟨c', hc', he⟩ := h
        rcases List.mem_cons.1 hc' with rfl | hmemr
        · exact he
        · exact absurd he (hrest c' hmemr)
      rw [installFold_portAssignment_not_mem nr conn rest _ pid hrest]
      unfold SolverState.portAssignment
      rw [installStep_portAssignments, ← hc, getEntry_set_self]
      rfl

theorem installStep_region (nr : SolvedRoute) (conn : Connection) (s : SolverState)
    (c : Candidate) (rid : RegionId) :
    ∀ a ∈ (installStep nr conn s c).regionAssignList rid,
      a ∈ s.regionAssignList rid ∨
      ∃ lp, c.lastPort = some lp ∧ rid = c.lastRegion.getD default ∧
        a = { regionPort1 := lp, regionPort2 := c.port, region := rid,
              connection := conn, solvedRoute := nr } := by
  intro a ha
  unfold installStep at ha
  cases hlp : c.lastPort with
  | none =>
    rw [hlp] at ha
    exact Or.inl ha
  | some lp =>
    rw [hlp] at ha
    dsimp only at ha
    unfold SolverState.regionAssignList at ha ⊢
    by_cases hk : c.lastRegion.getD default = rid
    · rw [← hk] at ha ⊢
      rw [getEntry_set_self] at ha
      simp only [Option.getD_some] at ha
      rcases List.mem_append.1 ha with h1 | h2
      · exact Or.inl h1
      · exact Or.inr ⟨lp, rfl, rfl, List.mem_singleton.1 h2⟩
    · rw [getEntry_set_ne _ _ _ _ hk] at ha
      exact Or.inl ha

theorem installFold_region (nr : SolvedRoute) (conn : Connection)
    (l : List Candidate) (s : SolverState) (rid : RegionId) :
    ∀ a ∈ (l.foldl (installStep nr conn) s).regionAssignList rid,
      a ∈ s.regionAssignList rid ∨
      ∃ c ∈ l, ∃ lp, c.lastPort = some lp ∧ rid = c.lastRegion.getD default ∧
        a = { regionPort1 := lp, regionPort2 := c.port, region := rid,
              connection := conn, solvedRoute := nr } := by
  induction l generalizing s with
  | nil => exact fun a ha => Or.inl ha
  | cons c rest ih =>
    intro a ha
    simp only [List.foldl_cons] at ha
    rcases ih _ a ha with h1 | h2
    · rcases installStep_region nr conn s c rid a h1 with g1 | ⟨lp, hlp, hrid, hrec⟩
      · exact Or.inl g1
      · exact Or.inr ⟨c, List.mem_cons_self _ _, lp, hlp, hrid, hrec⟩
    · obtain ⟨c', hc', rest'⟩ := h2
      exact Or.inr ⟨c', List.mem_cons_of_mem _ hc', rest'⟩

/-- Every collected rip target is a currently installed route, under the
reference invariants and the hook contract (the source hook reads
region.assignments of the traversed region). -/
theorem collectRoutesToRip_mem (hooks : SolverHooks) (st : SolverState)
    (conn : Connection) (path : List Candidate) (anyRips : Bool)
    (hok2 : ∀ (s : SolverState) (rid : RegionId) (p1 p2 : RegionPort),
      ∀ a ∈ hooks.getRipsRequiredForPortUsage s rid p1 p2, a ∈ s.regionAssignList rid)
    (hpa : PortAssignOk st) (hra : RegionAssignOk st) :
    ∀ r ∈ collectRoutesToRip hooks st conn path anyRips, r ∈ st.solvedRoutes := by
  intro r hr
  have hr2 := dedupByRouteIdFuel_subset _ _ r hr
  rw [List.mem_append] at hr2
  rcases hr2 with h1 | h2
  · by_cases ha : anyRips = true
    · rw [if_pos ha] at h1
      rw [List.mem_filterMap] at h1
      obtain ⟨c, _, hval⟩ := h1
      cases hlook : st.portAssignment c.port.portId with
      | none => rw [hlook] at hval; cases hval
      | some a =>
        rw [hlook] at hval
        rw [Option.ite_none_right_eq_some] at hval
        obtain ⟨_, heq⟩ := hval
        obtain rfl := Option.some.inj heq
        exact (hpa _ _ hlook).1
    · rw [if_neg ha] at h1
      simp at h1
  · rw [List.mem_flatMap] at h2
    obtain ⟨c, _, hval⟩ := h2
    cases hlp : c.lastPort with
    | none =>
      rw [hlp] at hval
      simp at hval
    | some lp =>
      rw [hlp] at hval
      cases hlr : c.lastRegion with
      | none =>
        rw [hlr] at hval
        simp at hval
      | some lr =>
        rw [hlr] at hval
        rw [List.mem_map] at hval
        obtain ⟨a, hamem, rfl⟩ := hval
        exact (hra lr a (hok2 st lr lp c.port a hamem)).1

theorem collectRoutesToRip_pairwise (hooks : SolverHooks) (st : SolverState)
    (conn : Connection) (path : List Candidate) (anyRips : Bool) :
    (collectRoutesToRip hooks st conn path anyRips).Pairwise
      (fun a b => a.routeId ≠ b.routeId) :=
  dedupByRouteIdFuel_pairwise _ _

/-- A single well-formed step of a route chain: a non-root candidate's
traversed region is adjacent to its own port. -/
def CandWF (c : Candidate) : Prop :=
  ∀ lp, c.lastPort = some lp →
    c.lastRegion.getD default = c.port.region1 ∨
    c.lastRegion.getD default = c.port.region2

/-- Chain well-formedness along a candidate's reconstructed path. -/
def ChainWF (c : Candidate) : Prop := ∀ x ∈ buildPath c, CandWF x

/-- Unfolding of processSolvedRoute in the active-connection case, with
the requiredRip flag abstracted. -/
theorem processSolvedRoute_eq (hooks : SolverHooks) (st : SolverState)
    (fc : Candidate) (conn : Connection) (hconn : st.currentConnection = some conn) :
    ∃ rr : Bool,
      processSolvedRoute hooks st fc =
        { installRoute
            ((collectRoutesToRip hooks st conn (buildPath fc)
                ((buildPath fc).any (fun c => c.ripRequired))).foldl ripSolvedRoute st)
            { routeId := st.nextRouteId, path := buildPath fc, connection := conn,
              requiredRip := rr } conn with
          solvedRoutes :=
            (installRoute
              ((collectRoutesToRip hooks st conn (buildPath fc)
                  ((buildPath fc).any (fun c => c.ripRequired))).foldl ripSolvedRoute st)
              { routeId := st.nextRouteId, path := buildPath fc, connection := conn,
                requiredRip := rr } conn).solvedRoutes ++
            [{ routeId := st.nextRouteId, path := buildPath fc, connection := conn,
               requiredRip := rr }]
          nextRouteId := st.nextRouteId + 1 } := by
  apply Exists.intro
  unfold processSolvedRoute
  rw [hconn]

/-- Conservation across the rip/install/push tail of processSolvedRoute,
stated over the explicit result shape. -/
theorem installPush_conserve (st stR fin : SolverState) (nr : SolvedRoute)
    (conn : Connection) (rips : List SolvedRoute)
    (hstR : stR = rips.foldl ripSolvedRoute st)
    (hfin : fin = { installRoute stR nr conn with
      solvedRoutes := (installRoute stR nr conn).solvedRoutes ++ [nr]
      nextRouteId := st.nextRouteId + 1 })
    (hnrid : nr.routeId = st.nextRouteId)
    (hnrconn : nr.connection = conn)
    (hchain : ∀ c ∈ nr.path, CandWF c)
    (hpairw : rips.Pairwise (fun a b => a.routeId ≠ b.routeId))
    (hmemrips : ∀ r ∈ rips, r ∈ st.solvedRoutes)
    (hnd : (st.solvedRoutes.map SolvedRoute.routeId).Nodup)
    (hlt : ∀ r ∈ st.solvedRoutes, r.routeId < st.nextRouteId)
    (hpa : PortAssignOk st) (hra : RegionAssignOk st) :
    List.Perm (fin.solvedRoutes.map SolvedRoute.connection ++ fin.unprocessedConnections)
      ((st.solvedRoutes.map SolvedRoute.connection ++ [conn]) ++
        st.unprocessedConnections) ∧
    (fin.solvedRoutes.map SolvedRoute.routeId).Nodup ∧
    (∀ r ∈ fin.solvedRoutes, r.routeId < fin.nextRouteId) ∧
    PortAssignOk fin ∧ RegionAssignOk fin ∧
    fin.graph = st.graph ∧ fin.connections = st.connections ∧
    fin.currentConnection = st.currentConnection ∧
    fin.candidateQueue = st.candidateQueue ∧
    fin.solved = st.solved ∧ fin.failed = st.failed ∧
    fin.nextRouteId = st.nextRouteId + 1 := by
  obtain ⟨hperm1, hup1, hnd1, hpa1, hra1⟩ :=
    ripRoutesFold_conserve rips st hpairw hmemrips hnd hpa hra
  obtain ⟨hg1, hc1, hcc1, hsv1, hfl1, hnri1, hq1⟩ := ripRoutesFold_misc rips st
  rw [← hstR] at hperm1 hup1 hnd1 hpa1 hra1 hg1 hc1 hcc1 hsv1 hfl1 hnri1 hq1
  have hinst : installRoute stR nr conn = nr.path.foldl (installStep nr conn) stR := rfl
  obtain ⟨i1, i2, i3, i4, i5, i6, i7, i8, i9⟩ := installFold_misc nr conn nr.path stR
  rw [← hinst] at i1 i2 i3 i4 i5 i6 i7 i8 i9
  have fSv : fin.solvedRoutes = (installRoute stR nr conn).solvedRoutes ++ [nr] := by
    rw [hfin]
  have fUp : fin.unprocessedConnections =
      (installRoute stR nr conn).unprocessedConnections := by rw [hfin]
  have fNr : fin.nextRouteId = st.nextRouteId + 1 := by rw [hfin]
  have fG : fin.graph = (installRoute stR nr conn).graph := by rw [hfin]
  have fC : fin.connections = (installRoute stR nr conn).connections := by rw [hfin]
  have fCC : fin.currentConnection = (installRoute stR nr conn).currentConnection := by
    rw [hfin]
  have fQ : fin.candidateQueue = (installRoute stR nr conn).candidateQueue := by
    rw [hfin]
  have fSo : fin.solved = (installRoute stR nr conn).solved := by rw [hfin]
  have fFa : fin.failed = (installRoute stR nr conn).failed := by rw [hfin]
  have fPAl : ∀ pid, fin.portAssignment pid =
      (installRoute stR nr conn).portAssignment pid := by
    intro pid
    unfold SolverState.portAssignment
    rw [hfin]
  have fRAl : ∀ rid, fin.regionAssignList rid =
      (installRoute stR nr conn).regionAssignList rid := by
    intro rid
    unfold SolverState.regionAssignList
    rw [hfin]
  have hsub : ∀ x ∈ stR.solvedRoutes, x ∈ st.solvedRoutes := by
    intro x hx
    exact hperm1.mem_iff.2 (List.mem_append.2 (Or.inr hx))
  have hltR : ∀ x ∈ stR.solvedRoutes, x.routeId < st.nextRouteId :=
    fun x hx => hlt x (hsub x hx)
  refine ⟨?_, ?_, ?_, ?_, ?_, fG.trans (i3.trans hg1), fC.trans (i4.trans hc1),
    fCC.trans (i5.trans hcc1), fQ.trans (i9.trans hq1), fSo.trans (i6.trans hsv1),
    fFa.trans (i7.trans hfl1), fNr⟩
  · rw [fSv, fUp, i2, hup1, i1, List.map_append]
    have hnrc : [nr].map SolvedRoute.connection = [conn] := by
      simp [hnrconn]
    rw [hnrc]
    have hmapped : List.Perm (st.solvedRoutes.map SolvedRoute.connection)
        (rips.map SolvedRoute.connection ++
          stR.solvedRoutes.map SolvedRoute.connection) := by
      have h0 := hperm1.map SolvedRoute.connection
      rwa [List.map_append] at h0
    have h1 : List.Perm
        ((stR.solvedRoutes.map SolvedRoute.connection ++ [conn]) ++
          (st.unprocessedConnections ++ rips.map SolvedRoute.connection))
        (((rips.map SolvedRoute.connection ++
            stR.solvedRoutes.map SolvedRoute.connection) ++ [conn]) ++
          st.unprocessedConnections) := by
      refine List.Perm.trans
        (List.Perm.append_left _ List.perm_append_comm) ?_
      rw [← List.append_assoc]
      refine List.Perm.append_right _ ?_
      exact List.perm_append_comm.trans (by rw [List.append_assoc])
    have h2 : List.Perm
        ((st.solvedRoutes.map SolvedRoute.connection ++ [conn]) ++
          st.unprocessedConnections)
        (((rips.map SolvedRoute.connection ++
            stR.solvedRoutes.map SolvedRoute.connection) ++ [conn]) ++
          st.unprocessedConnections) :=
      List.Perm.append_right _ (List.Perm.append_right _ hmapped)
    exact h1.trans h2.symm
  · rw [fSv, i1, List.map_append, List.map_singleton, List.nodup_append]
    refine ⟨hnd1, List.nodup_singleton _, ?_⟩
    intro x hx hx2
    rw [List.mem_singleton] at hx2
    rw [List.mem_map] at hx
    obtain ⟨y, hy, hyid⟩ := hx
    have hylt := hltR y hy
    rw [hyid, hx2, hnrid] at hylt
    exact lt_irrefl _ hylt
  · intro r hr
    rw [fSv, i1] at hr
    rw [fNr]
    rcases List.mem_append.1 hr with h | h
    · exact Nat.lt_succ_of_lt (hltR r h)
    · rw [List.mem_singleton.1 h, hnrid]
      exact Nat.lt_succ_self _
  · intro pid a hlook
    rw [fPAl pid] at hlook
    by_cases hmem : ∃ c ∈ nr.path, c.port.portId = pid
    · have hv := installFold_portAssignment_mem nr conn nr.path stR pid hmem
      rw [← hinst] at hv
      rw [hv] at hlook
      obtain rfl := Option.some.inj hlook
      constructor
      · rw [fSv]
        exact List.mem_append.2 (Or.inr (List.mem_singleton.2 rfl))
      · exact hmem
    · push_neg at hmem
      have hv := installFold_portAssignment_not_mem nr conn nr.path stR pid hmem
      rw [← hinst] at hv
      rw [hv] at hlook
      obtain ⟨hmem2, hex⟩ := hpa1 pid a hlook
      exact ⟨by rw [fSv, i1]; exact List.mem_append.2 (Or.inl hmem2), hex⟩
  · intro rid ra hmem'
    rw [fRAl rid] at hmem'
    rw [hinst] at hmem'
    rcases installFold_region nr conn nr.path stR rid ra hmem' with
      hold | ⟨c, hcpath, lp, hlp, hridr, hrec⟩
    · obtain ⟨hm, c, h1, h2, h3⟩ := hra1 rid ra hold
      exact ⟨by rw [fSv, i1]; exact List.mem_append.2 (Or.inl hm), c, h1, h2, h3⟩
    · subst hrec
      refine ⟨?_, c, hcpath, rfl, ?_⟩
      · rw [fSv]
        exact List.mem_append.2 (Or.inr (List.mem_singleton.2 rfl))
      · rcases hchain c hcpath lp hlp with h | h
        · exact Or.inl (hridr.trans h)
        · exact Or.inr (hridr.trans h)

/-- Conservation across processSolvedRoute in the active-connection
case: the new route is appended, ripped routes move back to the
unprocessed queue as their connections, and the reference invariants
survive. -/
theorem processSolvedRoute_conserve (hooks : SolverHooks) (st : SolverState)
    (fc : Candidate) (conn : Connection)
    (hok2 : ∀ (s : SolverState) (rid : RegionId) (p1 p2 : RegionPort),
      ∀ a ∈ hooks.getRipsRequiredForPortUsage s rid p1 p2, a ∈ s.regionAssignList rid)
    (hconn : st.currentConnection = some conn)
    (hnd : (st.solvedRoutes.map SolvedRoute.routeId).Nodup)
    (hlt : ∀ r ∈ st.solvedRoutes, r.routeId < st.nextRouteId)
    (hpa : PortAssignOk st) (hra : RegionAssignOk st)
    (hfc : ChainWF fc) :
    List.Perm
      ((processSolvedRoute hooks st fc).solvedRoutes.map SolvedRoute.connection ++
        (processSolvedRoute hooks st fc).unprocessedConnections)
      ((st.solvedRoutes.map SolvedRoute.connection ++ [conn]) ++
        st.unprocessedConnections) ∧
    ((processSolvedRoute hooks st fc).solvedRoutes.map SolvedRoute.routeId).Nodup ∧
    (∀ r ∈ (processSolvedRoute hooks st fc).solvedRoutes,
      r.routeId < (processSolvedRoute hooks st fc).nextRouteId) ∧
    PortAssignOk (processSolvedRoute hooks st fc) ∧
    RegionAssignOk (processSolvedRoute hooks st fc) ∧
    (processSolvedRoute hooks st fc).graph = st.graph ∧
    (processSolvedRoute hooks st fc).connections = st.connections ∧
    (processSolvedRoute hooks st fc).currentConnection = st.currentConnection ∧
    (processSolvedRoute hooks st fc).candidateQueue = st.candidateQueue ∧
    (processSolvedRoute hooks st fc).solved = st.solved ∧
    (processSolvedRoute hooks st fc).failed = st.failed ∧
    (processSolvedRoute hooks st fc).nextRouteId = st.nextRouteId + 1 := by
  obtain ⟨rr, heq⟩ := processSolvedRoute_eq hooks st fc conn hconn
  exact installPush_conserve st _ _
    { routeId := st.nextRouteId, path := buildPath fc, connection := conn,
      requiredRip := rr }
    conn
    (collectRoutesToRip hooks st conn (buildPath fc)
      ((buildPath fc).any (fun c => c.ripRequired)))
    rfl heq rfl rfl hfc
    (collectRoutesToRip_pairwise hooks st conn (buildPath fc)
      ((buildPath fc).any (fun c => c.ripRequired)))
    (collectRoutesToRip_mem hooks st conn (buildPath fc)
      ((buildPath fc).any (fun c => c.ripRequired)) hok2 hpa hra)
    hnd hlt hpa hra

theorem processSolvedRoute_none (hooks : SolverHooks) (st : SolverState)
    (fc : Candidate) (h : st.currentConnection = none) :
    processSolvedRoute hooks st fc = st := by
  unfold processSolvedRoute
  rw [h]

/-- The hook contract assumed of every subclass: the selection hook
returns a subset of its input group, and the rips-required hook returns
records of the traversed region's assignment list (the source reads
region.assignments). Both base defaults and the Jumper overrides satisfy
it. -/
def HooksOK (hooks : SolverHooks) : Prop :=
  (∀ (l : List Candidate), ∀ x ∈ hooks.selectCandidatesForEnteringRegion l, x ∈ l) ∧
  (∀ (s : SolverState) (rid : RegionId) (p1 p2 : RegionPort),
    ∀ a ∈ hooks.getRipsRequiredForPortUsage s rid p1 p2, a ∈ s.regionAssignList rid)

/-- The conservation invariant of the solve loop: every input connection
is accounted for exactly once among installed routes, the live one and
the unprocessed queue; route ids are distinct and below the counter;
assignments reference installed routes; queue chains are graph-shaped. -/
structure ConsInv (conns : List Connection) (st : SolverState) : Prop where
  wf : GraphWF st.graph
  connEq : st.connections = conns
  perm : List.Perm
    (st.solvedRoutes.map SolvedRoute.connection ++
      (if st.solved = true then [] else
        st.currentConnection.toList ++ st.unprocessedConnections))
    conns
  idsNodup : (st.solvedRoutes.map SolvedRoute.routeId).Nodup
  idsLt : ∀ r ∈ st.solvedRoutes, r.routeId < st.nextRouteId
  portOk : PortAssignOk st
  regionOk : RegionAssignOk st
  queueWF : ∀ c ∈ st.candidateQueue, ChainWF c

theorem beginNewConnection_fields_cons (st : SolverState) (c : Connection)
    (rest : List Connection) (h : st.unprocessedConnections = c :: rest) :
    beginNewConnection st = { st with
      currentConnection := some c
      currentEndRegion := some c.endRegion.regionId
      unprocessedConnections := rest
      candidateQueue := c.startRegion.ports.map (rootCandidate c)
      visitedPoints := [] } := by
  unfold beginNewConnection
  rw [h]

theorem chainWF_root (conn : Connection) (p : RegionPort) :
    ChainWF (rootCandidate conn p) := by
  intro x hx
  have hx2 : x = rootCandidate conn p := by
    simpa [rootCandidate, buildPath] using hx
  subst hx2
  intro lp hlp
  exact Option.noConfusion hlp

theorem chainWF_child (hooks : SolverHooks) (st : SolverState) (d : CandidateData)
    (c : Candidate) (hc : ChainWF c)
    (hwf2 : d.lastRegion.getD default = d.port.region1 ∨
      d.lastRegion.getD default = d.port.region2) :
    ChainWF (assignScores hooks st (Candidate.child d c)) := by
  intro y hy
  have hbp : buildPath (assignScores hooks st (Candidate.child d c)) =
      buildPath c ++ [assignScores hooks st (Candidate.child d c)] := rfl
  rw [hbp] at hy
  rcases List.mem_append.1 hy with h1 | h2
  · exact hc y h1
  · rw [List.mem_singleton] at h2
    subst h2
    intro lp hlp
    exact hwf2

/-- Every expansion candidate extends a well-formed chain with a
well-formed hop: the entered region is adjacent to the new port. -/
theorem chainWF_expansion (hooks : SolverHooks) (st : SolverState) (c : Candidate)
    (hwf : GraphWF st.graph)
    (hsel : ∀ (l : List Candidate), ∀ x ∈ hooks.selectCandidatesForEnteringRegion l, x ∈ l)
    (hc : ChainWF c) :
    ∀ x ∈ getNextCandidates hooks st c, ChainWF x := by
  intro x hx
  obtain ⟨curRid, currentRegion, c₀, hnr, hfr, hraw, rfl⟩ :=
    mem_getNextCandidates hooks st c hsel x hx
  obtain ⟨port, rr2, hport, rfl, _⟩ := mem_rawNextCandidates_full _ hraw
  apply chainWF_child hooks st _ c hc
  have hstr := hwf.straddle currentRegion (findRegion_mem hfr) port hport
  show currentRegion.regionId = port.region1 ∨ currentRegion.regionId = port.region2
  rcases hstr with h | h
  · exact Or.inl h.symm
  · exact Or.inr h.symm

/-- One engine step preserves the conservation invariant. -/
theorem consInv_step (hooks : SolverHooks) (conns : List Connection)
    (st : SolverState) (hok : HooksOK hooks) (hinv : ConsInv conns st)
    (hsolved : st.solved = false) : ConsInv conns (stepSolver hooks st) := by
  have hp0 : List.Perm (st.solvedRoutes.map SolvedRoute.connection ++
      (st.currentConnection.toList ++ st.unprocessedConnections)) conns := by
    have hp := hinv.perm
    rw [hsolved] at hp
    simpa using hp
  cases hfp : findProcessable st.visitedPoints st.candidateQueue with
  | none =>
    have heq : stepSolver hooks st =
        { st with failed := true, error := some SolverError.ranOutOfCandidates } := by
      unfold stepSolver
      rw [hfp]
    rw [heq]
    exact ⟨hinv.wf, hinv.connEq, hinv.perm, hinv.idsNodup, hinv.idsLt,
      hinv.portOk, hinv.regionOk, hinv.queueWF⟩
  | some cq =>
    obtain ⟨c, q'⟩ := cq
    obtain ⟨hcq, hq'⟩ := findProcessable_subset hfp
    rw [stepSolver_of_fp _ _ _ _ hfp]
    by_cases hgoal : goalReached (recordVisited st c q') c = true
    · have hstep : stepWithCandidate hooks st c q' =
          (if (processSolvedRoute hooks (recordVisited st c q')
                c).unprocessedConnections.isEmpty = true
            then { processSolvedRoute hooks (recordVisited st c q') c with
              solved := true }
            else beginNewConnection
              (processSolvedRoute hooks (recordVisited st c q') c)) := by
        unfold stepWithCandidate
        dsimp only
        rw [hgoal]
        simp only [if_true]
      rw [hstep]
      cases hcc : st.currentConnection with
      | none =>
        have hps : processSolvedRoute hooks (recordVisited st c q') c =
            recordVisited st c q' :=
          processSolvedRoute_none _ _ _ hcc
        rw [hps]
        by_cases hemp : (recordVisited st c q').unprocessedConnections.isEmpty = true
        · rw [if_pos hemp]
          have hemp2 : st.unprocessedConnections = [] := by
            cases h : st.unprocessedConnections with
            | nil => rfl
            | cons a l =>
              have h2 : (recordVisited st c q').unprocessedConnections = a :: l := h
              rw [h2] at hemp
              simp [List.isEmpty] at hemp
          refine ⟨hinv.wf, hinv.connEq, ?_, hinv.idsNodup, hinv.idsLt,
            hinv.portOk, hinv.regionOk, ?_⟩
          · show List.Perm
              (st.solvedRoutes.map SolvedRoute.connection ++ []) conns
            rw [List.append_nil]
            rw [hcc, hemp2] at hp0
            simpa using hp0
          · intro x hx
            exact hinv.queueWF x (hq' x hx)
        · rw [if_neg hemp]
          cases hup : st.unprocessedConnections with
          | nil =>
            have h2 : (recordVisited st c q').unprocessedConnections = [] := hup
            rw [h2] at hemp
            simp at hemp
          | cons c2 rest =>
            rw [beginNewConnection_fields_cons (recordVisited st c q') c2 rest hup]
            refine ⟨hinv.wf, hinv.connEq, ?_, hinv.idsNodup, hinv.idsLt,
              hinv.portOk, hinv.regionOk, ?_⟩
            · show List.Perm
                (st.solvedRoutes.map SolvedRoute.connection ++
                  (if st.solved = true then [] else [c2] ++ rest)) conns
              rw [hsolved]
              simp only [Bool.false_eq_true, if_false]
              rw [hcc, hup] at hp0
              simpa using hp0
            · intro x hx
              have hx2 : x ∈ c2.startRegion.ports.map (rootCandidate c2) := hx
              obtain ⟨p, _, rfl⟩ := List.mem_map.1 hx2
              exact chainWF_root c2 p
      | some conn =>
        have hconn1 : (recordVisited st c q').currentConnection = some conn := hcc
        have hcw : ChainWF c := hinv.queueWF c hcq
        obtain ⟨hperm, hndn, hltn, hpan, hran, hgn, hcn, hccn, hqn, hsvn, hfln, hnrn⟩ :=
          processSolvedRoute_conserve hooks (recordVisited st c q') c conn hok.2
            hconn1 hinv.idsNodup hinv.idsLt hinv.portOk hinv.regionOk hcw
        have hsv2 : (processSolvedRoute hooks (recordVisited st c q') c).solved
            = false := hsvn.trans hsolved
        have hwf2 : GraphWF
            (processSolvedRoute hooks (recordVisited st c q') c).graph := by
          rw [hgn]
          exact hinv.wf
        have hconn2 : (processSolvedRoute hooks (recordVisited st c q') c).connections
            = conns := hcn.trans hinv.connEq
        have hqsub : ∀ x ∈ (processSolvedRoute hooks
            (recordVisited st c q') c).candidateQueue, ChainWF x := by
          intro x hx
          rw [hqn] at hx
          exact hinv.queueWF x (hq' x hx)
        by_cases hemp : (processSolvedRoute hooks (recordVisited st c q')
            c).unprocessedConnections.isEmpty = true
        · rw [if_pos hemp]
          have hempl : (processSolvedRoute hooks (recordVisited st c q')
              c).unprocessedConnections = [] := by
            cases h : (processSolvedRoute hooks (recordVisited st c q')
                c).unprocessedConnections with
            | nil => rfl
            | cons a l =>
              rw [h] at hemp
              simp [List.isEmpty] at hemp
          refine ⟨hwf2, hconn2, ?_, hndn, hltn, hpan, hran, ?_⟩
          · show List.Perm
              ((processSolvedRoute hooks (recordVisited st c q')
                c).solvedRoutes.map SolvedRoute.connection ++ []) conns
            rw [List.append_nil]
            rw [hempl, List.append_nil] at hperm
            refine hperm.trans ?_
            rw [List.append_assoc]
            rw [hcc] at hp0
            simpa using hp0
          · exact hqsub
        · rw [if_neg hemp]
          cases hup2 : (processSolvedRoute hooks (recordVisited st c q')
              c).unprocessedConnections with
          | nil =>
            rw [hup2] at hemp
            simp at hemp
          | cons c2 rest =>
            rw [beginNewConnection_fields_cons _ c2 rest hup2]
            refine ⟨hwf2, hconn2, ?_, hndn, hltn, hpan, hran, ?_⟩
            · show List.Perm
                ((processSolvedRoute hooks (recordVisited st c q')
                  c).solvedRoutes.map SolvedRoute.connection ++
                  (if (processSolvedRoute hooks (recordVisited st c q')
                    c).solved = true then [] else [c2] ++ rest)) conns
              rw [hsv2]
              simp only [Bool.false_eq_true, if_false]
              have hperm2 := hperm
              rw [hup2] at hperm2
              refine hperm2.trans ?_
              rw [List.append_assoc]
              rw [hcc] at hp0
              simpa using hp0
            · intro x hx
              have hx2 : x ∈ c2.startRegion.ports.map (rootCandidate c2) := hx
              obtain ⟨p, _, rfl⟩ := List.mem_map.1 hx2
              exact chainWF_root c2 p
    · have hstep : stepWithCandidate hooks st c q' =
          { recordVisited st c q' with candidateQueue :=
              (q' ++ getNextCandidates hooks (recordVisited st c q') c) } := by
        unfold stepWithCandidate
        dsimp only
        rw [Bool.not_eq_true] at hgoal
        rw [hgoal]
        simp only [Bool.false_eq_true, if_false]
        rfl
      rw [hstep]
      refine ⟨hinv.wf, hinv.connEq, hinv.perm, hinv.idsNodup, hinv.idsLt,
        hinv.portOk, hinv.regionOk, ?_⟩
      intro x hx
      rcases List.mem_append.1 hx with h1 | h2
      · exact hinv.queueWF x (hq' x h1)
      · exact chainWF_expansion hooks (recordVisited st c q') c hinv.wf hok.1
          (hinv.queueWF c hcq) x h2

theorem consInv_runSteps (hooks : SolverHooks) (conns : List Connection)
    (hok : HooksOK hooks) :
    ∀ (n : Nat) (st : SolverState), ConsInv conns st →
      ConsInv conns (runSteps hooks n st) := by
  intro n
  induction n with
  | zero => exact fun st hinv => hinv
  | succ m ih =>
    intro st hinv
    by_cases hterm : st.solved = true ∨ st.failed = true
    · have heq : runSteps hooks (m + 1) st = st := by
        unfold runSteps
        rw [if_pos hterm]
      rw [heq]
      exact hinv
    · have hs : st.solved = false := by
        cases h : st.solved
        · rfl
        · exact absurd (Or.inl h) hterm
      have hf : st.failed = false := by
        cases h : st.failed
        · rfl
        · exact absurd (Or.inr h) hterm
      rw [runSteps_succ_active hooks m st hs hf]
      exact ih _ (consInv_step hooks conns st hok hinv hs)

theorem beginNewConnection_fields_nil (st : SolverState)
    (h : st.unprocessedConnections = []) :
    beginNewConnection st = { st with currentConnection := none } := by
  unfold beginNewConnection
  rw [h]

theorem getEntry_resetFold_none (l : List Region)
    (acc : List (RegionId × List RegionPortAssignment)) (rid : RegionId)
    (h1 : ∀ r ∈ l, r.regionId ≠ rid) (h2 : getEntry acc rid = none) :
    getEntry (l.foldl (fun acc r => setEntry acc r.regionId
      ([] : List RegionPortAssignment)) acc) rid = none := by
  induction l generalizing acc with
  | nil => exact h2
  | cons x rest ih =>
    simp only [List.foldl_cons]
    apply ih _ (fun r hr => h1 r (List.mem_cons_of_mem _ hr))
    rw [getEntry_set_ne _ _ _ _ (h1 x (List.mem_cons_self _ _))]
    exact h2

/-- The invariant holds right after beginNewConnection on a fresh
constructor state. -/
theorem consInv_of_begin (conns : List Connection) (st0 : SolverState)
    (hwf : GraphWF st0.graph)
    (hconn : st0.connections = conns)
    (hunp : st0.unprocessedConnections = conns)
    (hsv : st0.solved = false)
    (hsr : st0.solvedRoutes = [])
    (hpa : st0.portAssignments = [])
    (hq0 : st0.candidateQueue = [])
    (hreg : ∀ rid, st0.regionAssignList rid = []) :
    ConsInv conns (beginNewConnection st0) := by
  cases conns with
  | nil =>
    rw [beginNewConnection_fields_nil st0 hunp]
    refine ⟨hwf, hconn, ?_, ?_, ?_, ?_, ?_, ?_⟩
    · show List.Perm (st0.solvedRoutes.map SolvedRoute.connection ++
        (if st0.solved = true then [] else
          (Option.none (α := Connection)).toList ++ st0.unprocessedConnections)) []
      rw [hsr, hsv, hunp]
      simp
    · show (st0.solvedRoutes.map SolvedRoute.routeId).Nodup
      rw [hsr]
      simp
    · intro r hr
      have h2 : r ∈ st0.solvedRoutes := hr
      rw [hsr] at h2
      simp at h2
    · intro pid a h
      have h2 : st0.portAssignment pid = some a := h
      unfold SolverState.portAssignment at h2
      rw [hpa] at h2
      exact Option.noConfusion h2
    · intro rid ra hmem
      have h2 : ra ∈ st0.regionAssignList rid := hmem
      rw [hreg rid] at h2
      simp at h2
    · intro x hx
      have h2 : x ∈ st0.candidateQueue := hx
      rw [hq0] at h2
      simp at h2
  | cons c2 rest =>
    rw [beginNewConnection_fields_cons st0 c2 rest hunp]
    refine ⟨hwf, hconn, ?_, ?_, ?_, ?_, ?_, ?_⟩
    · show List.Perm (st0.solvedRoutes.map SolvedRoute.connection ++
        (if st0.solved = true then [] else [c2] ++ rest)) (c2 :: rest)
      rw [hsr, hsv]
      simp
    · show (st0.solvedRoutes.map SolvedRoute.routeId).Nodup
      rw [hsr]
      simp
    · intro r hr
      have h2 : r ∈ st0.solvedRoutes := hr
      rw [hsr] at h2
      simp at h2
    · intro pid a h
      have h2 : st0.portAssignment pid = some a := h
      unfold SolverState.portAssignment at h2
      rw [hpa] at h2
      exact Option.noConfusion h2
    · intro rid ra hmem
      have h2 : ra ∈ st0.regionAssignList rid := hmem
      rw [hreg rid] at h2
      simp at h2
    · intro x hx
      have hx2 : x ∈ c2.startRegion.ports.map (rootCandidate c2) := hx
      obtain ⟨p, _, rfl⟩ := List.mem_map.1 hx2
      exact chainWF_root c2 p

/-- The invariant holds for the constructed solver, provided the input
assignment records only mention regions of the graph (in the source
they live on the graph's region objects). -/
theorem consInv_mkSolver (graph : HyperGraph) (connections : List Connection)
    (ira : List (RegionId × List RegionPortAssignment))
    (gm : Cost) (re : Bool) (rc : Cost)
    (hwf : GraphWF graph)
    (hira : ∀ k ∈ ira, k.1 ∈ graph.regions.map Region.regionId) :
    ConsInv connections (mkSolver graph connections ira gm re rc) := by
  have hreg : ∀ (rid : RegionId), (getEntry (graph.regions.foldl
      (fun acc r => setEntry acc r.regionId ([] : List RegionPortAssignment)) ira)
      rid).getD [] = ([] : List RegionPortAssignment) := by
    intro rid
    by_cases hrid : ∃ r ∈ graph.regions, r.regionId = rid
    · rw [getEntry_resetFold graph.regions ira rid (Or.inl hrid)]
      rfl
    · push_neg at hrid
      have hnone : getEntry ira rid = none := by
        cases hlook : getEntry ira rid with
        | none => rfl
        | some v =>
          have hmem := mem_of_getEntry hlook
          have hk := hira (rid, v) hmem
          rw [List.mem_map] at hk
          obtain ⟨r, hr, hrid2⟩ := hk
          exact absurd hrid2 (hrid r hr)
      rw [getEntry_resetFold_none graph.regions ira rid hrid hnone]
      rfl
  unfold mkSolver
  exact consInv_of_begin connections _ hwf rfl rfl rfl rfl rfl rfl hreg

/-- C6: connection conservation on success. If the solver terminates
solved, the installed routes' connections are exactly the input
connections (as a permutation): the counts match, and when the input
connection ids are distinct each id is solved exactly once. Holds for
every hook family satisfying the subclass contract, any graph whose
ports straddle their regions, and input records keyed by graph regions
(HyperGraphSolver.processSolvedRoute lines 218-287, ripSolvedRoute lines
310-323, _step lines 347-393). -/
theorem c6_conservation (hooks : SolverHooks) (graph : HyperGraph)
    (connections : List Connection)
    (ira : List (RegionId × List RegionPortAssignment))
    (gm : Cost) (re : Bool) (rc : Cost) (n : Nat)
    (hok : HooksOK hooks) (hwf : GraphWF graph)
    (hira : ∀ k ∈ ira, k.1 ∈ graph.regions.map Region.regionId)
    (hsolved : (runSteps hooks n (mkSolver graph connections ira gm re rc)).solved
      = true) :
    List.Perm
      ((runSteps hooks n (mkSolver graph connections ira gm re rc)).solvedRoutes.map
        SolvedRoute.connection) connections ∧
    (runSteps hooks n (mkSolver graph connections ira gm re rc)).solvedRoutes.length
      = connections.length ∧
    ((connections.map Connection.connectionId).Nodup →
      ∀ cid ∈ connections.map Connection.connectionId,
        ((runSteps hooks n (mkSolver graph connections ira gm re
          rc)).solvedRoutes.map (fun r => r.connection.connectionId)).count cid
          = 1) := by
  have hinv := consInv_runSteps hooks connections hok n _
    (consInv_mkSolver graph connections ira gm re rc hwf hira)
  have hperm : List.Perm
      ((runSteps hooks n (mkSolver graph connections ira gm re rc)).solvedRoutes.map
        SolvedRoute.connection) connections := by
    have hp := hinv.perm
    rw [hsolved] at hp
    simpa using hp
  refine ⟨hperm, ?_, ?_⟩
  · have hlen := hperm.length_eq
    rwa [List.length_map] at hlen
  · intro hnd cid hcid
    have h2 : List.Perm
        ((runSteps hooks n (mkSolver graph connections ira gm re
          rc)).solvedRoutes.map (fun r => r.connection.connectionId))
        (connections.map Connection.connectionId) := by
      have h3 := hperm.map Connection.connectionId
      rwa [List.map_map] at h3
    rw [h2.count_eq]
    exact List.count_eq_one_of_mem hnd hcid

/-- Witness for C6 at the concrete single-connection two-region input:
the solve succeeds and exactly the one input connection is solved, once. -/
theorem c6_witness :
    List.Perm
      ((runSteps baseHooks 2 (mkSolver twoRegionGraph [connAB1] [] 1 false
        0)).solvedRoutes.map SolvedRoute.connection) [connAB1] ∧
    (runSteps baseHooks 2 (mkSolver twoRegionGraph [connAB1] [] 1 false
      0)).solvedRoutes.length = [connAB1].length ∧
    (([connAB1].map Connection.connectionId).Nodup →
      ∀ cid ∈ [connAB1].map Connection.connectionId,
        ((runSteps baseHooks 2 (mkSolver twoRegionGraph [connAB1] [] 1 false
          0)).solvedRoutes.map (fun r => r.connection.connectionId)).count cid
          = 1) :=
  c6_conservation baseHooks twoRegionGraph [connAB1] [] 1 false 0 2
    ⟨fun _ x hx => hx, fun _ _ _ _ a ha => absurd ha (List.not_mem_nil a)⟩
    ⟨by decide, by decide, by decide⟩
    (fun k hk => absurd hk (List.not_mem_nil k))
    (by decide)

/-- Witness for C8 at a concrete construction and an exhausted state. -/
theorem c8_witness :
    ({ mkSolver twoRegionGraph [connAB1] [] 1 false 0 with
        iterations := 4001 } : SolverState).solved = false ∧
    solveWithBudget baseHooks (mkJumperSolver [] [] none none).maxIterations 1
        { mkSolver twoRegionGraph [connAB1] [] 1 false 0 with iterations := 4001 } =
      { ({ mkSolver twoRegionGraph [connAB1] [] 1 false 0 with
            iterations := 4001 } : SolverState) with
        failed := true, error := some SolverError.budgetExhausted } :=
  ⟨by decide,
    (c8_budget [] [] none none).2 baseHooks 0
      { mkSolver twoRegionGraph [connAB1] [] 1 false 0 with iterations := 4001 }
      (by decide) (by decide) (by decide)⟩

end HG
